import Mathlib

/-
Verification of the *Check, Please* workflow core: the checklist data model,
the dependency/leveling/cycle-detection engine, the readiness resolution
function, the execution-context builder (src/src/checklist.ts), and the
per-step-kind completers (src/src/completers.ts).

JavaScript objects used as string-keyed dictionaries are modelled as functions
String → Option α.  The `any`-typed value/output fields are modelled as
String (their content is opaque to the core).  ABI fragments are opaque to the
core as well and are modelled as String.
-/

/-- Part of a Handlebars parameter template: literal text or a placeholder
path such as stepID.value.  The source stores params as raw template strings
and hands them to the external Handlebars library; the embedding works with
the parsed form. -/
inductive TmplPart where
  | lit (s : String)
  | placeholder (path : List String)
deriving DecidableEq

/-- A parameter template is a sequence of template parts. -/
abbrev Template := List TmplPart

/-- ABI function fragments are opaque to the workflow core. -/
abbrev AbiFunctionFragment := String

/-- Kind-specific fields of the four step variants of the discriminated union
in src/src/checklist.ts (InputStep, ViewStep, RawStep, MethodStep). -/
inductive StepData where
  | manual (value : Option String)
  | view (chainID toAddr : String) (methodABI : AbiFunctionFragment) (params : List Template)
      (output blockNumber blockHash : Option String)
  | raw (chainID toAddr calldata : String) (value : Option String)
      (methodABI : Option AbiFunctionFragment) (txHash : Option String) (success : Option Bool)
  | method (chainID toAddr : String) (methodABI : AbiFunctionFragment) (params : List Template)
      (value : Option String) (txHash : Option String) (success : Option Bool)
      (output : Option String)
deriving DecidableEq

/-- A step: the shared BaseStep fields plus the kind-specific data. -/
structure Step where
  executor : String
  stepID : String
  description : Option String
  dependsOn : List String
  data : StepData
deriving DecidableEq

/-- isStepComplete from src/src/checklist.ts. -/
def isStepComplete (step : Step) : Bool :=
  match step.data with
  | .manual value => value.isSome
  | .view _ _ _ _ output _ _ => output.isSome
  | .raw _ _ _ _ _ txHash _ => txHash.isSome
  | .method _ _ _ _ _ txHash _ _ => txHash.isSome

/-- Checklist from src/src/checklist.ts. -/
structure Checklist where
  requester : String
  description : Option String
  steps : List Step
  complete : Option Bool
deriving DecidableEq

/-- StepResult from src/src/checklist.ts; every field is optional in the
source object literal. -/
structure StepResult where
  success : Option Bool
  value : Option String
  executing : Option Bool
deriving DecidableEq

/-- ExecutionContext: a string-keyed map of StepResults. -/
abbrev ExecutionContext := String → Option StepResult

/-- Assignment m[id] = v on a JavaScript-object-as-dictionary. -/
def updateMap {α : Type} (m : String → Option α) (id : String) (v : α) :
    String → Option α :=
  fun x => if x = id then some v else m x

/-- Loop 1 of checkStepIDs: scan the steps, returning false on the first
stepID already seen. -/
def firstLoopOK : List String → List Step → Bool
  | _, [] => true
  | seen, step :: rest =>
    if seen.contains step.stepID then false else firstLoopOK (step.stepID :: seen) rest

/-- checkStepIDs from src/src/checklist.ts: stepIDs must be distinct and every
dependsOn entry must name an existing step. -/
def checkStepIDs (checklist : Checklist) : Bool :=
  if firstLoopOK [] checklist.steps then
    checklist.steps.all (fun step =>
      step.dependsOn.all (fun d => (checklist.steps.map (fun s => s.stepID)).contains d))
  else false

/-- Dictionary from stepID to assigned level. -/
abbrev LevelMap := String → Option Nat

/-- The empty levels dictionary. -/
def noLevels : LevelMap := fun _ => none

/-- Truthiness test !!levels[id] used by nextLevel in the source. -/
def levelTruthy (levels : LevelMap) (id : String) : Bool :=
  match levels id with
  | some n => n != 0
  | none => false

/-- nextLevel from src/src/checklist.ts: the not-yet-levelled steps all of
whose dependencies already have a (truthy) level. -/
def nextLevel (steps : List Step) (levels : LevelMap) : List Step :=
  steps.filter (fun step =>
    (levels step.stepID).isNone && step.dependsOn.all (fun d => levelTruthy levels d))

/-- The assignment loop of calculateLevels: levels[step.stepID] = currentLevel
for each step of the level. -/
def assignLevel : LevelMap → List Step → Nat → LevelMap
  | levels, [], _ => levels
  | levels, s :: rest, v => assignLevel (updateMap levels s.stepID v) rest v

/-- Recursion core of calculateLevels.  The source recursion strictly shrinks
the step list on every call (each pass assigns at least one step and filters
the assigned steps out), so it performs at most length-many calls; the fuel
argument makes the recursion structural without changing the result. -/
def calculateLevelsGo : Nat → List Step → Nat → LevelMap → LevelMap
  | 0, _, _, levels => levels
  | fuel + 1, steps, currentLevel, levels =>
    if nextLevel steps levels = [] then levels
    else
      calculateLevelsGo fuel
        (steps.filter (fun step =>
          ((assignLevel levels (nextLevel steps levels) currentLevel) step.stepID).isNone))
        (currentLevel + 1)
        (assignLevel levels (nextLevel steps levels) currentLevel)

/-- calculateLevels from src/src/checklist.ts.  The source mutates the levels
dictionary and recurses on the steps still unlevelled; the embedding returns
the final dictionary. -/
def calculateLevels (steps : List Step) (currentLevel : Nat) (levels : LevelMap) : LevelMap :=
  calculateLevelsGo (steps.length + 1) steps currentLevel levels

/-- cycles from src/src/checklist.ts: run the leveling to completion and
return the steps that never received a level, in input order. -/
def cycles (steps : List Step) : List Step :=
  steps.filter (fun step => ((calculateLevels steps 1 noLevels) step.stepID).isNone)

/-- The comparator passed to Array.prototype.sort by nextSteps, folded into a
boolean "comparator result is at most 0" relation.  When either level is
undefined both numeric comparisons in the source are false and the comparator
returns 0. -/
def levelLe (levels : LevelMap) (a b : Step) : Bool :=
  match levels a.stepID, levels b.stepID with
  | some la, some lb => decide (la ≤ lb)
  | _, _ => true

/-- One insertion of a stable insertion sort: x is placed before the first
element that is not strictly below it. -/
def insertStable (le : Step → Step → Bool) (x : Step) : List Step → List Step
  | [] => [x]
  | y :: ys => if le y x && !le x y then y :: insertStable le x ys else x :: y :: ys

/-- Array.prototype.sort is mandated stable (ECMAScript 2019); it is modelled
as a stable insertion sort driven by the comparator relation. -/
def stableSort (le : Step → Step → Bool) : List Step → List Step
  | [] => []
  | x :: xs => insertStable le x (stableSort le xs)

/-- Dictionary from stepID to the accumulated transitive dependency list. -/
abbrev TDMap := String → Option (List String)

/-- Inner loop of the transitiveDependencies accumulation in nextSteps:
td[stepID] = td[stepID].concat(td[d] or []) for each direct dependency d. -/
def addTransDepsLoop (stepID : String) : TDMap → List String → TDMap
  | m, [] => m
  | m, d :: rest =>
    addTransDepsLoop stepID
      (updateMap m stepID (((m stepID).getD []) ++ ((m d).getD []))) rest

/-- Per-step body of the transitiveDependencies accumulation:
td[step.stepID] = [...step.dependsOn] followed by the inner loop. -/
def addTransDeps (m : TDMap) (step : Step) : TDMap :=
  addTransDepsLoop step.stepID (updateMap m step.stepID step.dependsOn) step.dependsOn

/-- The transitiveDependencies loop of nextSteps over a list of steps. -/
def buildTransDeps : TDMap → List Step → TDMap
  | m, [] => m
  | m, step :: rest => buildTransDeps (addTransDeps m step) rest

/-- nextSteps from src/src/checklist.ts: level the steps, sort a copy by
level, split into complete/incomplete, accumulate transitive dependencies in
sorted order, and keep the incomplete steps all of whose accumulated
dependencies are complete. -/
def nextSteps (checklist : Checklist) : List Step :=
  let levels := calculateLevels checklist.steps 1 noLevels
  let steps := stableSort (levelLe levels) checklist.steps
  let completeSteps : String → Bool :=
    fun id => steps.any (fun s => isStepComplete s && s.stepID == id)
  let incompleteSteps := steps.filter (fun s => !isStepComplete s)
  let transitiveDependencies := buildTransDeps (fun _ => none) steps
  incompleteSteps.filter (fun s =>
    ((transitiveDependencies s.stepID).getD []).all completeSteps)

/-- The StepResult written for one complete step by the switch inside
generateExecutionContext. -/
def ctxEntry (step : Step) : StepResult :=
  match step.data with
  | .manual value => ⟨some true, value, some false⟩
  | .view _ _ _ _ output _ _ => ⟨some true, output, some false⟩
  | .raw _ _ _ _ _ txHash success => ⟨some (success.getD false), txHash, some false⟩
  | .method _ _ _ _ _ _ success output => ⟨some (success.getD false), output, some false⟩

/-- The forEach loop of generateExecutionContext. -/
def buildContext : ExecutionContext → List Step → ExecutionContext
  | ctx, [] => ctx
  | ctx, step :: rest => buildContext (updateMap ctx step.stepID (ctxEntry step)) rest

/-- generateExecutionContext from src/src/checklist.ts: filter to complete
steps and emit one StepResult per step, keyed by stepID. -/
def generateExecutionContext (checklist : Checklist) : ExecutionContext :=
  buildContext (fun _ => none) (checklist.steps.filter isStepComplete)

/-- Rendering of a JavaScript boolean into template output. -/
def boolString (b : Bool) : String := if b then "true" else "false"

/-- Modelled from the behavior of the external Handlebars library as invoked
by the completers: Handlebars.compile(param) is called without any options, so
rendering is non-strict and a path that cannot be resolved in the context
produces the empty string.  A one-segment path names a whole StepResult
object; a two-segment path names one of its fields. -/
def lookupPath (context : ExecutionContext) : List String → Option String
  | [stepID] => (context stepID).map (fun _ => "[object Object]")
  | [stepID, field] =>
    match context stepID with
    | some result =>
      if field = "success" then result.success.map boolString
      else if field = "value" then result.value
      else if field = "executing" then result.executing.map boolString
      else none
    | none => none
  | _ => none

/-- Non-strict rendering of one template part: unresolvable placeholders
produce the empty string. -/
def renderPart (context : ExecutionContext) : TmplPart → String
  | .lit s => s
  | .placeholder path => (lookupPath context path).getD ""

/-- Non-strict rendering of a whole parameter template. -/
def renderTemplate (context : ExecutionContext) (t : Template) : String :=
  t.foldl (fun acc part => acc ++ renderPart context part) ""

/-- The observable outcome of running one completer action: whether it threw,
the resulting step, and the resulting execution context. -/
structure CompleterResult where
  threw : Option String
  step : Step
  ctx : ExecutionContext

/-- The in-flight marker common to all completers: if the context has no
entry for the step yet, set it to an executing-only placeholder. -/
def markExecuting (ctx : ExecutionContext) (id : String) : ExecutionContext :=
  if (ctx id).isNone then updateMap ctx id ⟨none, none, some true⟩ else ctx

/-- Responses of the external chain client consumed by completeRawStep. -/
structure RawOracle where
  signedRaw : String
  txHash : String

/-- Responses of the external chain client consumed by completeViewStep. -/
structure ViewOracle where
  actualChainID : String
  blockHash : Option String
  callResult : String

/-- Responses of the external chain client consumed by completeMethodStep:
the live chain identifier, and whether the transactionHash and error callbacks
of the submission fired. -/
structure MethodOracle where
  actualChainID : String
  txHashEvent : Option String
  errorEvent : Option String

/-- completeInputStep from src/src/completers.ts. -/
def completeInputStep (executionContext : ExecutionContext) (step : Step)
    (value : String) : CompleterResult :=
  let ctx1 := markExecuting executionContext step.stepID
  match step.data with
  | .manual _ =>
    ⟨none,
     ⟨step.executor, step.stepID, step.description, step.dependsOn, .manual (some value)⟩,
     updateMap ctx1 step.stepID ⟨some true, some value, some false⟩⟩
  | _ => ⟨some "completeInputStep: not an InputStep", step, ctx1⟩

/-- completeViewStep from src/src/completers.ts: mark in-flight, compare the
live chain identifier with the step's declared chainID and throw on mismatch,
otherwise interpolate the parameters, perform the external call and record
output, blockNumber (the argument) and blockHash (or "unknown"). -/
def completeViewStep (executionContext : ExecutionContext) (step : Step)
    (blockNumber : String) (chain : ViewOracle) : CompleterResult :=
  let ctx1 := markExecuting executionContext step.stepID
  match step.data with
  | .view chainID toAddr methodABI params _ _ _ =>
    if chain.actualChainID ≠ chainID then
      ⟨some ("You are attempting to query the wrong chain: step = " ++ chainID ++
          ", actual = " ++ chain.actualChainID), step, ctx1⟩
    else
      let _args := params.map (renderTemplate ctx1)
      ⟨none,
       ⟨step.executor, step.stepID, step.description, step.dependsOn,
        .view chainID toAddr methodABI params (some chain.callResult) (some blockNumber)
          (some (match chain.blockHash with | some h => h | none => "unknown"))⟩,
       updateMap ctx1 step.stepID ⟨some true, some chain.callResult, some false⟩⟩
  | _ => ⟨some "completeViewStep: not a ViewStep", step, ctx1⟩

/-- completeMethodStep from src/src/completers.ts: mark in-flight, throw on a
chain mismatch, otherwise interpolate the parameters and submit; the
transactionHash callback writes step.txHash, the error callback writes
step.output, and the terminal context entry records success true and the
step's output.  The relative timing of the callbacks and the terminal write is
abstracted: both callbacks are applied before the terminal write. -/
def completeMethodStep (executionContext : ExecutionContext) (step : Step)
    (sender : String) (chain : MethodOracle) : CompleterResult :=
  let ctx1 := markExecuting executionContext step.stepID
  match step.data with
  | .method chainID toAddr methodABI params value txHash success output =>
    if chain.actualChainID ≠ chainID then
      ⟨some ("You are attempting to submit this transaction on the wrong chain: step = " ++
          chainID ++ ", actual = " ++ chain.actualChainID), step, ctx1⟩
    else
      let _args := params.map (renderTemplate ctx1)
      let txHash2 := match chain.txHashEvent with | some h => some h | none => txHash
      let output2 := match chain.errorEvent with | some e => some e | none => output
      ⟨none,
       ⟨step.executor, step.stepID, step.description, step.dependsOn,
        .method chainID toAddr methodABI params value txHash2 success output2⟩,
       updateMap ctx1 step.stepID ⟨some true, output2, some false⟩⟩
  | _ => ⟨some "completeMethodStep: not a MethodStep", step, ctx1⟩

/-- completeRawStep from src/src/completers.ts: mark in-flight, sign and send
the raw transaction, set step.txHash and step.success = true, and write the
terminal context entry, which contains success and executing only. -/
def completeRawStep (executionContext : ExecutionContext) (step : Step)
    (sender : String) (chain : RawOracle) : CompleterResult :=
  let ctx1 := markExecuting executionContext step.stepID
  match step.data with
  | .raw chainID toAddr calldata value methodABI _ _ =>
    ⟨none,
     ⟨step.executor, step.stepID, step.description, step.dependsOn,
      .raw chainID toAddr calldata value methodABI (some chain.txHash) (some true)⟩,
     updateMap ctx1 step.stepID ⟨some true, none, some false⟩⟩
  | _ => ⟨some "completeRawStep: not a RawStep", step, ctx1⟩

/-- Direct dependency edge of the dependency graph: a step named a depends on
the stepID b. -/
def edge (steps : List Step) (a b : String) : Prop :=
  ∃ s ∈ steps, s.stepID = a ∧ b ∈ s.dependsOn

/-- The dependency graph is a DAG: no stepID reaches itself through one or
more dependency edges. -/
def IsDAG (steps : List Step) : Prop :=
  ∀ id : String, ¬ Relation.TransGen (edge steps) id id

/-- Semantic validity corresponding to checkStepIDs: distinct stepIDs and no
dangling dependency reference. -/
def ValidIDs (steps : List Step) : Prop :=
  (steps.map (fun s => s.stepID)).Nodup ∧
  ∀ s ∈ steps, ∀ d ∈ s.dependsOn, d ∈ steps.map (fun s => s.stepID)

/-- Invariant of the calculateLevels recursion: the remaining steps have
distinct ids and are unlevelled, every assigned level lies in [1, k), and
once past the first pass every remaining step has a dependency that is
unlevelled or was assigned on the immediately preceding pass. -/
def LevelInv (steps : List Step) (k : Nat) (levels : LevelMap) : Prop :=
  (steps.map (fun s => s.stepID)).Nodup ∧
  1 ≤ k ∧
  (∀ id v, levels id = some v → 1 ≤ v ∧ v < k) ∧
  (∀ s ∈ steps, levels s.stepID = none) ∧
  (∀ s ∈ steps, 1 < k → ∃ d ∈ s.dependsOn, levels d = none ∨ levels d = some (k - 1))

/-- Maximum of a list of naturals, 0 for the empty list. -/
def maxList : List Nat → Nat
  | [] => 0
  | x :: rest => Nat.max x (maxList rest)

/-- A checklist around a bare step list (checkStepIDs reads only the steps). -/
def mkChecklist (steps : List Step) : Checklist := ⟨"", none, steps, none⟩

/-- For an unlevelled step id, some dependency that is itself unlevelled
(used to trace a cycle through the unlevelled steps). -/
def pickUnlevelled (steps : List Step) (levels : LevelMap) (id : String) : String :=
  match steps.find? (fun s => s.stepID == id) with
  | some s => (s.dependsOn.find? (fun d => (levels d).isNone)).getD ""
  | none => ""

/-- The empty execution context. -/
def emptyCtx : ExecutionContext := fun _ => none

/-- Three-step chain a, b depends on a, c depends on b; nothing complete. -/
def chainA : Step := ⟨"friend", "a", none, [], .manual none⟩

/-- Second step of the three-step chain. -/
def chainB : Step := ⟨"friend", "b", none, ["a"], .manual none⟩

/-- Third step of the three-step chain. -/
def chainC : Step := ⟨"friend", "c", none, ["b"], .manual none⟩

/-- The fresh three-step chain checklist. -/
def chainFresh : Checklist := ⟨"0xdead", none, [chainA, chainB, chainC], none⟩

/-- The middle step of the chain, completed. -/
def chainBdone : Step := ⟨"friend", "b", none, ["a"], .manual (some "rofl")⟩

/-- The three-step chain with only the middle step completed. -/
def chainOnlyB : Checklist := ⟨"0xdead", none, [chainA, chainBdone, chainC], none⟩

/-- Step e of the 7-step cycle-detection example. -/
def stepE7 : Step := ⟨"friend", "e", none, ["d", "f"], .manual none⟩

/-- Step f of the 7-step cycle-detection example. -/
def stepF7 : Step := ⟨"friend", "f", none, ["d", "g"], .manual none⟩

/-- Step g of the 7-step cycle-detection example. -/
def stepG7 : Step := ⟨"friend", "g", none, ["d", "e"], .manual none⟩

/-- The 7-step graph a:[], b:[a], c:[b], d:[a], e:[d,f], f:[d,g], g:[d,e]. -/
def g7 : List Step :=
  [⟨"friend", "a", none, [], .manual none⟩,
   ⟨"friend", "b", none, ["a"], .manual none⟩,
   ⟨"friend", "c", none, ["b"], .manual none⟩,
   ⟨"friend", "d", none, ["a"], .manual none⟩,
   stepE7, stepF7, stepG7]

/-- A raw step whose transaction was executed but failed (txHash set,
success false). -/
def rawFailed : Step :=
  ⟨"x", "s", none, [], .raw "1" "0xto" "0xdata" none none (some "0xabc") (some false)⟩

/-- A manual step depending on the failed raw step. -/
def depOnFailed : Step := ⟨"x", "t", none, ["s"], .manual none⟩

/-- Checklist with a failed-but-complete raw dependency. -/
def failedDepChecklist : Checklist := ⟨"r", none, [rawFailed, depOnFailed], none⟩

/-- A fresh raw step used to exercise completeRawStep. -/
def rawDemoStep : Step := ⟨"x", "r1", none, [], .raw "1" "0xto" "0xdata" none none none none⟩

/-- Outcome of running completeRawStep on the fresh raw step with transaction
hash 0xabc. -/
def rawDemoResult : CompleterResult :=
  completeRawStep emptyCtx rawDemoStep "0xsender" ⟨"signedraw", "0xabc"⟩

/-- Checklist holding the raw step as mutated by completeRawStep. -/
def rawDemoChecklist : Checklist := ⟨"r", none, [rawDemoResult.step], none⟩

/-- A method step whose single parameter template references a step absent
from the execution context. -/
def methodDemoStep : Step :=
  ⟨"x", "m1", none, [], .method "1" "0xto" "transfer"
    [[TmplPart.placeholder ["prior", "value"]]] none none none none⟩

/-- A view step on chain 1 used to exercise the chain-mismatch guard. -/
def viewDemoStep : Step :=
  ⟨"x", "v1", none, [], .view "1" "0xto" "decimals" [] none none none⟩

/-- Outcome of running completeMethodStep on the demo method step: matching
chain, transactionHash callback fired, no error callback. -/
def methodDemoResult : CompleterResult :=
  completeMethodStep emptyCtx methodDemoStep "0xsender" ⟨"1", some "0xhash", none⟩

/-- Checklist holding the method step as mutated by completeMethodStep. -/
def methodDemoChecklist : Checklist := ⟨"r", none, [methodDemoResult.step], none⟩

/-- A manual step with a value, for execution-context examples. -/
def manualDone : Step := ⟨"x", "a", none, [], .manual (some "42")⟩

/-- A raw step without a txHash, for execution-context examples. -/
def rawPending : Step := ⟨"x", "b", none, [], .raw "1" "0xto" "0xdata" none none none none⟩

/-- Checklist with one complete and one incomplete step. -/
def ctxDemoChecklist : Checklist := ⟨"r", none, [manualDone, rawPending], none⟩

/-! Basic facts about the dictionary operations. -/

theorem updateMap_self {α : Type} (m : String → Option α) (id : String) (v : α) :
    updateMap m id v id = some v := by
  simp [updateMap]

theorem updateMap_ne {α : Type} (m : String → Option α) (id x : String) (v : α)
    (h : x ≠ id) : updateMap m id v x = m x := by
  simp [updateMap, h]

theorem assignLevel_apply (ls : List Step) (m : LevelMap) (v : Nat) (id : String) :
    assignLevel m ls v id =
      if ls.any (fun s => s.stepID == id) then some v else m id := by
  induction ls generalizing m with
  | nil => simp [assignLevel]
  | cons a t ih =>
    rw [assignLevel, ih]
    simp only [List.any_cons, Bool.or_eq_true, beq_iff_eq]
    by_cases ht : t.any (fun s => s.stepID == id) = true
    · simp [ht]
    · by_cases ha : a.stepID = id
      · simp [ht, ha, updateMap]
      · have hne : id ≠ a.stepID := fun h => ha h.symm
        simp [ht, ha, updateMap_ne m a.stepID id v hne]

theorem firstLoopOK_iff (l : List Step) (seen : List String) :
    firstLoopOK seen l = true ↔
      ((l.map (fun s => s.stepID)).Nodup ∧ ∀ s ∈ l, s.stepID ∉ seen) := by
  induction l generalizing seen with
  | nil => simp [firstLoopOK]
  | cons a t ih =>
    rw [firstLoopOK]
    by_cases hc : seen.contains a.stepID = true
    · simp only [hc, if_true]
      constructor
      · intro h; exact absurd h (by simp)
      · rintro ⟨-, hall⟩
        exact absurd (List.elem_iff.mp hc) (hall a (List.mem_cons_self a t))
    · simp only [hc, if_false, Bool.false_eq_true]
      rw [ih]
      have hseen : a.stepID ∉ seen := fun h => hc (List.elem_iff.mpr h)
      constructor
      · rintro ⟨hnd, hall⟩
        refine ⟨?_, ?_⟩
        · rw [List.map_cons, List.nodup_cons]
          refine ⟨?_, hnd⟩
          intro hmem
          obtain ⟨s, hs, hid⟩ := List.mem_map.mp hmem
          exact (hall s hs) (by rw [hid]; exact List.mem_cons_self _ _)
        · intro s hs
          rcases List.mem_cons.mp hs with rfl | hst
          · exact hseen
          · intro hmem
            exact (hall s hst) (List.mem_cons_of_mem _ hmem)
      · rintro ⟨hnd, hall⟩
        rw [List.map_cons, List.nodup_cons] at hnd
        refine ⟨hnd.2, ?_⟩
        intro s hs hmem
        rcases List.mem_cons.mp hmem with heq | hin
        · exact hnd.1 (List.mem_map.mpr ⟨s, hs, heq⟩)
        · exact (hall s (List.mem_cons_of_mem _ hs)) hin

theorem checkStepIDs_iff (cl : Checklist) :
    checkStepIDs cl = true ↔ ValidIDs cl.steps := by
  rw [checkStepIDs]
  by_cases h1 : firstLoopOK [] cl.steps = true
  · simp only [h1, if_true]
    rw [List.all_eq_true]
    have hnodup := (firstLoopOK_iff cl.steps []).mp h1
    unfold ValidIDs
    constructor
    · intro h
      refine ⟨hnodup.1, ?_⟩
      intro s hs d hd
      have h2 := h s hs
      rw [List.all_eq_true] at h2
      exact List.elem_iff.mp (h2 d hd)
    · rintro ⟨-, h2⟩ s hs
      rw [List.all_eq_true]
      intro d hd
      exact List.elem_iff.mpr (h2 s hs d hd)
  · simp only [h1, if_false, Bool.false_eq_true]
    constructor
    · intro h; exact absurd h (by simp)
    · rintro ⟨hnd, -⟩
      exact h1 ((firstLoopOK_iff cl.steps []).mpr ⟨hnd, by simp⟩)

/-- C8: for every checklist, checkStepIDs returns false if any two steps share
the same stepID or any dependsOn entry names a stepID not present among the
checklist's steps, and returns true otherwise. -/
theorem checkStepIDs_spec (cl : Checklist) :
    checkStepIDs cl = true ↔
      ((cl.steps.map (fun s => s.stepID)).Nodup ∧
        ∀ s ∈ cl.steps, ∀ d ∈ s.dependsOn, d ∈ cl.steps.map (fun s => s.stepID)) :=
  checkStepIDs_iff cl

/-! Facts about the leveling recursion. -/

theorem filter_length_lt_of_exists (p : Step → Bool) (l : List Step)
    (h : ∃ x ∈ l, p x = false) : (l.filter p).length < l.length := by
  induction l with
  | nil => obtain ⟨x, hx, -⟩ := h; cases hx
  | cons a t ih =>
    obtain ⟨x, hx, hpx⟩ := h
    rcases List.mem_cons.mp hx with rfl | hxt
    · rw [List.filter_cons, hpx]
      exact Nat.lt_succ_of_le (List.length_filter_le _ _)
    · by_cases hpa : p a
      · rw [List.filter_cons, hpa]
        simpa using Nat.succ_lt_succ (ih ⟨x, hxt, hpx⟩)
      · rw [List.filter_cons]
        simp only [hpa, Bool.false_eq_true, if_false]
        exact Nat.lt_succ_of_lt (ih ⟨x, hxt, hpx⟩)

theorem assignLevel_mem_some (ls : List Step) (m : LevelMap) (v : Nat) (s : Step)
    (hs : s ∈ ls) : assignLevel m ls v s.stepID = some v := by
  rw [assignLevel_apply]
  have : ls.any (fun a => a.stepID == s.stepID) = true :=
    List.any_eq_true.mpr ⟨s, hs, by simp⟩
  simp [this]

theorem assignLevel_not_mem (ls : List Step) (m : LevelMap) (v : Nat) (id : String)
    (h : ∀ a ∈ ls, a.stepID ≠ id) : assignLevel m ls v id = m id := by
  rw [assignLevel_apply]
  have : ls.any (fun a => a.stepID == id) = false := by
    rw [List.any_eq_false]
    intro a ha
    simp [h a ha]
  simp [this]

theorem nextLevel_mem (steps : List Step) (levels : LevelMap) (s : Step)
    (h : s ∈ nextLevel steps levels) :
    s ∈ steps ∧ levels s.stepID = none ∧
      ∀ d ∈ s.dependsOn, levelTruthy levels d = true := by
  obtain ⟨h1, h2⟩ := List.mem_filter.mp h
  rw [Bool.and_eq_true] at h2
  exact ⟨h1, Option.isNone_iff_eq_none.mp h2.1, List.all_eq_true.mp h2.2⟩

theorem mem_nextLevel (steps : List Step) (levels : LevelMap) (s : Step)
    (h1 : s ∈ steps) (h2 : levels s.stepID = none)
    (h3 : ∀ d ∈ s.dependsOn, levelTruthy levels d = true) :
    s ∈ nextLevel steps levels := by
  refine List.mem_filter.mpr ⟨h1, ?_⟩
  rw [Bool.and_eq_true]
  exact ⟨by simp [h2], List.all_eq_true.mpr h3⟩

theorem levelTruthy_some (levels : LevelMap) (id : String)
    (h : levelTruthy levels id = true) : ∃ n, levels id = some n := by
  unfold levelTruthy at h
  cases hx : levels id with
  | none => rw [hx] at h; cases h
  | some n => exact ⟨n, rfl⟩

theorem levelTruthy_of_pos (levels : LevelMap) (id : String) (n : Nat)
    (h : levels id = some n) (hn : 1 ≤ n) : levelTruthy levels id = true := by
  unfold levelTruthy
  rw [h]
  show (n != 0) = true
  simp only [bne_iff_ne, ne_eq]
  omega

/-- Levels already assigned are never reassigned by a later pass. -/
theorem assignLevel_preserves (steps : List Step) (levels : LevelMap) (k : Nat)
    (id : String) (v : Nat) (h : levels id = some v) :
    assignLevel levels (nextLevel steps levels) k id = some v := by
  rw [assignLevel_not_mem]
  · exact h
  · intro a ha hid
    have := (nextLevel_mem steps levels a ha).2.1
    rw [hid, h] at this
    cases this

theorem calculateLevelsGo_mono (fuel : Nat) :
    ∀ steps k levels id v, levels id = some v →
      calculateLevelsGo fuel steps k levels id = some v := by
  induction fuel with
  | zero => intro steps k levels id v h; exact h
  | succ n ih =>
    intro steps k levels id v h
    rw [calculateLevelsGo]
    by_cases hnl : nextLevel steps levels = []
    · simp [hnl, h]
    · simp only [hnl, if_false]
      exact ih _ _ _ _ _ (assignLevel_preserves steps levels k id v h)

theorem calculateLevelsGo_pos (fuel : Nat) :
    ∀ steps k levels, (∀ id v, levels id = some v → 1 ≤ v) → 1 ≤ k →
      ∀ id v, calculateLevelsGo fuel steps k levels id = some v → 1 ≤ v := by
  induction fuel with
  | zero => intro steps k levels hlev _ id v h; exact hlev id v h
  | succ n ih =>
    intro steps k levels hlev hk id v h
    rw [calculateLevelsGo] at h
    by_cases hnl : nextLevel steps levels = []
    · rw [if_pos hnl] at h
      exact hlev id v h
    · rw [if_neg hnl] at h
      refine ih _ _ _ ?_ (Nat.le_succ_of_le hk) id v h
      intro id2 v2 h2
      rw [assignLevel_apply] at h2
      by_cases hany : (nextLevel steps levels).any (fun s => s.stepID == id2) = true
      · rw [if_pos hany] at h2
        cases h2
        exact hk
      · rw [if_neg hany] at h2
        exact hlev id2 v2 h2

/-- At the fixed point, every step left unlevelled has a dependency whose
level lookup is falsy in the final dictionary. -/
theorem calculateLevelsGo_blocked (fuel : Nat) :
    ∀ steps k levels, steps.length < fuel →
      ∀ s ∈ steps, calculateLevelsGo fuel steps k levels s.stepID = none →
        ∃ d ∈ s.dependsOn,
          levelTruthy (calculateLevelsGo fuel steps k levels) d = false := by
  induction fuel with
  | zero => intro steps k levels hlt; omega
  | succ n ih =>
    intro steps k levels hlt s hs hnone
    rw [calculateLevelsGo] at hnone ⊢
    by_cases hnl : nextLevel steps levels = []
    · rw [if_pos hnl] at hnone ⊢
      by_cases hall : s.dependsOn.all (fun d => levelTruthy levels d) = true
      · exact absurd (mem_nextLevel steps levels s hs hnone (List.all_eq_true.mp hall))
          (by rw [hnl]; exact List.not_mem_nil s)
      · obtain ⟨d, hd, hfd⟩ := List.all_eq_false.mp (Bool.eq_false_iff.mpr hall)
        exact ⟨d, hd, Bool.eq_false_iff.mpr hfd⟩
    · rw [if_neg hnl] at hnone ⊢
      have hmemrec : s ∈ steps.filter (fun step =>
          ((assignLevel levels (nextLevel steps levels) k) step.stepID).isNone) := by
        refine List.mem_filter.mpr ⟨hs, ?_⟩
        cases hv : assignLevel levels (nextLevel steps levels) k s.stepID with
        | none => rfl
        | some w =>
          have hsw := calculateLevelsGo_mono n
            (steps.filter (fun step =>
              ((assignLevel levels (nextLevel steps levels) k) step.stepID).isNone))
            (k + 1) (assignLevel levels (nextLevel steps levels) k) s.stepID w hv
          rw [hsw] at hnone
          cases hnone
      have hlen : (steps.filter (fun step =>
          ((assignLevel levels (nextLevel steps levels) k) step.stepID).isNone)).length < n := by
        have h1 : (steps.filter (fun step =>
            ((assignLevel levels (nextLevel steps levels) k) step.stepID).isNone)).length
            < steps.length := by
          refine filter_length_lt_of_exists _ _ ?_
          obtain ⟨a, ha⟩ : ∃ a, a ∈ nextLevel steps levels := by
            cases hc : nextLevel steps levels with
            | nil => exact absurd hc hnl
            | cons x t => exact ⟨x, List.mem_cons_self x t⟩
          refine ⟨a, (nextLevel_mem steps levels a ha).1, ?_⟩
          rw [assignLevel_mem_some _ _ _ _ ha]
          rfl
        omega
      exact ih _ (k + 1) _ hlen s hmemrec hnone

theorem recursion_length_lt (steps : List Step) (k : Nat) (levels : LevelMap)
    (hnl : nextLevel steps levels ≠ []) :
    (steps.filter (fun step =>
      ((assignLevel levels (nextLevel steps levels) k) step.stepID).isNone)).length
      < steps.length := by
  refine filter_length_lt_of_exists _ _ ?_
  obtain ⟨a, ha⟩ : ∃ a, a ∈ nextLevel steps levels := by
    cases hc : nextLevel steps levels with
    | nil => exact absurd hc hnl
    | cons x t => exact ⟨x, List.mem_cons_self x t⟩
  refine ⟨a, (nextLevel_mem steps levels a ha).1, ?_⟩
  rw [assignLevel_mem_some _ _ _ _ ha]
  rfl

theorem levelInv_init (steps : List Step)
    (hnd : (steps.map (fun s => s.stepID)).Nodup) : LevelInv steps 1 noLevels := by
  refine ⟨hnd, le_refl 1, ?_, ?_, ?_⟩
  · intro id v h
    simp [noLevels] at h
  · intro s _
    rfl
  · intro s _ h
    omega

theorem levelInv_step (steps : List Step) (k : Nat) (levels : LevelMap)
    (hInv : LevelInv steps k levels) (hnl : nextLevel steps levels ≠ []) :
    LevelInv
      (steps.filter (fun step =>
        ((assignLevel levels (nextLevel steps levels) k) step.stepID).isNone))
      (k + 1)
      (assignLevel levels (nextLevel steps levels) k) := by
  obtain ⟨hnd, hk, hbound, hnone, hblocked⟩ := hInv
  refine ⟨?_, Nat.le_succ_of_le hk, ?_, ?_, ?_⟩
  · exact List.Nodup.sublist (List.Sublist.map _ (List.filter_sublist _)) hnd
  · intro id v h
    rw [assignLevel_apply] at h
    by_cases hany : (nextLevel steps levels).any (fun s => s.stepID == id) = true
    · rw [if_pos hany] at h
      cases h
      omega
    · rw [if_neg hany] at h
      have := hbound id v h
      omega
  · intro s hsf
    exact Option.isNone_iff_eq_none.mp (List.mem_filter.mp hsf).2
  · intro s hsf _
    have hs : s ∈ steps := (List.mem_filter.mp hsf).1
    have hs2 : assignLevel levels (nextLevel steps levels) k s.stepID = none :=
      Option.isNone_iff_eq_none.mp (List.mem_filter.mp hsf).2
    have hnot : s ∉ nextLevel steps levels := by
      intro hmem
      rw [assignLevel_mem_some _ _ _ _ hmem] at hs2
      cases hs2
    have hlevnone : levels s.stepID = none := hnone s hs
    have hall : s.dependsOn.all (fun d => levelTruthy levels d) = false := by
      by_cases h : s.dependsOn.all (fun d => levelTruthy levels d) = true
      · exact absurd (mem_nextLevel steps levels s hs hlevnone (List.all_eq_true.mp h)) hnot
      · exact Bool.eq_false_iff.mpr h
    obtain ⟨d, hd, hfd⟩ := List.all_eq_false.mp hall
    have hfd2 : levelTruthy levels d = false := Bool.eq_false_iff.mpr hfd
    refine ⟨d, hd, ?_⟩
    have hdnone : levels d = none := by
      unfold levelTruthy at hfd2
      cases hld : levels d with
      | none => rfl
      | some w =>
        rw [hld] at hfd2
        have hw := hbound d w hld
        simp only [bne_eq_false_iff_eq] at hfd2
        omega
    rw [assignLevel_apply]
    by_cases hany : (nextLevel steps levels).any (fun a => a.stepID == d) = true
    · rw [if_pos hany]
      right
      simp
    · rw [if_neg hany]
      left
      exact hdnone

/-- Characterization of the level assigned to a step: every dependency has a
strictly smaller level, some dependency sits exactly one level below (when the
step's level exceeds 1), and level 1 is only assigned to dependency-free
steps. -/
theorem calculateLevelsGo_assigned (fuel : Nat) :
    ∀ steps k levels, steps.length < fuel → LevelInv steps k levels →
      ∀ s ∈ steps, ∀ v, calculateLevelsGo fuel steps k levels s.stepID = some v →
        ((∀ d ∈ s.dependsOn, ∃ w, calculateLevelsGo fuel steps k levels d = some w ∧ w < v) ∧
         (1 < v → ∃ d ∈ s.dependsOn, calculateLevelsGo fuel steps k levels d = some (v - 1)) ∧
         (v = 1 → s.dependsOn = [])) := by
  induction fuel with
  | zero => intro steps k levels hlt; omega
  | succ n ih =>
    intro steps k levels hlt hInv s hs v hsome
    rw [calculateLevelsGo] at hsome ⊢
    by_cases hnl : nextLevel steps levels = []
    · rw [if_pos hnl] at hsome
      rw [hInv.2.2.2.1 s hs] at hsome
      cases hsome
    · rw [if_neg hnl] at hsome ⊢
      have hlen : (steps.filter (fun step =>
          ((assignLevel levels (nextLevel steps levels) k) step.stepID).isNone)).length < n := by
        have := recursion_length_lt steps k levels hnl
        omega
      by_cases hmem2 : s ∈ steps.filter (fun step =>
          ((assignLevel levels (nextLevel steps levels) k) step.stepID).isNone)
      · exact ih _ (k + 1) _ hlen (levelInv_step steps k levels hInv hnl) s hmem2 v hsome
      · have hnonelev : levels s.stepID = none := hInv.2.2.2.1 s hs
        have hsnl : s ∈ nextLevel steps levels := by
          by_cases hany : (nextLevel steps levels).any (fun a => a.stepID == s.stepID) = true
          · obtain ⟨a, ha, hbeq⟩ := List.any_eq_true.mp hany
            have haid : a.stepID = s.stepID := by simpa using hbeq
            have haeq : a = s :=
              List.inj_on_of_nodup_map hInv.1 (nextLevel_mem steps levels a ha).1 hs haid
            rw [haeq] at ha
            exact ha
          · refine absurd (List.mem_filter.mpr ⟨hs, ?_⟩) hmem2
            rw [assignLevel_apply, if_neg hany, hnonelev]
            rfl
        have hlev2 : assignLevel levels (nextLevel steps levels) k s.stepID = some k :=
          assignLevel_mem_some _ _ _ _ hsnl
        have hveq : v = k := by
          have hmono := calculateLevelsGo_mono n
            (steps.filter (fun step =>
              ((assignLevel levels (nextLevel steps levels) k) step.stepID).isNone))
            (k + 1) (assignLevel levels (nextLevel steps levels) k) s.stepID k hlev2
          rw [hmono] at hsome
          exact (Option.some.inj hsome).symm
        have htruthy := (nextLevel_mem steps levels s hsnl).2.2
        refine ⟨?_, ?_, ?_⟩
        · intro d hd
          obtain ⟨wd, hwd⟩ := levelTruthy_some levels d (htruthy d hd)
          have hb := hInv.2.2.1 d wd hwd
          refine ⟨wd, ?_, by omega⟩
          exact calculateLevelsGo_mono n _ (k + 1) _ d wd
            (assignLevel_preserves steps levels k d wd hwd)
        · intro h1v
          have h1k : 1 < k := by omega
          obtain ⟨d, hd, hdisj⟩ := hInv.2.2.2.2 s hs h1k
          have hdlev : levels d = some (k - 1) := by
            rcases hdisj with hno | hyes
            · obtain ⟨wd, hwd⟩ := levelTruthy_some levels d (htruthy d hd)
              rw [hno] at hwd
              cases hwd
            · exact hyes
          refine ⟨d, hd, ?_⟩
          rw [hveq]
          exact calculateLevelsGo_mono n _ (k + 1) _ d (k - 1)
            (assignLevel_preserves steps levels k d (k - 1) hdlev)
        · intro hv1
          rw [List.eq_nil_iff_forall_not_mem]
          intro d hd
          obtain ⟨wd, hwd⟩ := levelTruthy_some levels d (htruthy d hd)
          have hb := hInv.2.2.1 d wd hwd
          omega

/-! Facts about the final level dictionary. -/

theorem finalLevels_pos (steps : List Step) (id : String) (v : Nat)
    (h : calculateLevels steps 1 noLevels id = some v) : 1 ≤ v := by
  simp only [calculateLevels] at h
  refine calculateLevelsGo_pos (steps.length + 1) steps 1 noLevels ?_ (le_refl 1) id v h
  intro id2 v2 h2
  simp [noLevels] at h2

theorem finalLevels_blocked (steps : List Step) (s : Step) (hs : s ∈ steps)
    (h : calculateLevels steps 1 noLevels s.stepID = none) :
    ∃ d ∈ s.dependsOn, calculateLevels steps 1 noLevels d = none := by
  simp only [calculateLevels] at h
  obtain ⟨d, hd, hfd⟩ := calculateLevelsGo_blocked (steps.length + 1) steps 1 noLevels
    (Nat.lt_succ_self _) s hs h
  refine ⟨d, hd, ?_⟩
  simp only [calculateLevels]
  unfold levelTruthy at hfd
  cases hld : calculateLevelsGo (steps.length + 1) steps 1 noLevels d with
  | none => rfl
  | some w =>
    have hpos : 1 ≤ w := finalLevels_pos steps d w (by simp only [calculateLevels]; exact hld)
    rw [hld] at hfd
    simp only [bne_eq_false_iff_eq] at hfd
    omega

theorem finalLevels_assigned (steps : List Step)
    (hnd : (steps.map (fun s => s.stepID)).Nodup) (s : Step) (hs : s ∈ steps) (v : Nat)
    (h : calculateLevels steps 1 noLevels s.stepID = some v) :
    (∀ d ∈ s.dependsOn, ∃ w, calculateLevels steps 1 noLevels d = some w ∧ w < v) ∧
    (1 < v → ∃ d ∈ s.dependsOn, calculateLevels steps 1 noLevels d = some (v - 1)) ∧
    (v = 1 → s.dependsOn = []) := by
  simp only [calculateLevels] at h ⊢
  exact calculateLevelsGo_assigned (steps.length + 1) steps 1 noLevels (Nat.lt_succ_self _)
    (levelInv_init steps hnd) s hs v h

theorem mem_cycles_iff (steps : List Step) (s : Step) :
    s ∈ cycles steps ↔ s ∈ steps ∧ calculateLevels steps 1 noLevels s.stepID = none := by
  unfold cycles
  rw [List.mem_filter]
  simp [Option.isNone_iff_eq_none]

theorem cycles_eq_nil_iff_levelled (steps : List Step) :
    cycles steps = [] ↔
      ∀ s ∈ steps, ∃ v, calculateLevels steps 1 noLevels s.stepID = some v := by
  unfold cycles
  rw [List.filter_eq_nil_iff]
  constructor
  · intro h s hs
    have := h s hs
    cases hv : calculateLevels steps 1 noLevels s.stepID with
    | none => rw [hv] at this; simp at this
    | some v => exact ⟨v, rfl⟩
  · intro h s hs
    obtain ⟨v, hv⟩ := h s hs
    rw [hv]
    simp

theorem transGen_level_lt (steps : List Step)
    (hnd : (steps.map (fun s => s.stepID)).Nodup) (a b : String)
    (h : Relation.TransGen (edge steps) a b) :
    ∀ va, calculateLevels steps 1 noLevels a = some va →
      ∃ vb, calculateLevels steps 1 noLevels b = some vb ∧ vb < va := by
  induction h with
  | single hab =>
    intro va hva
    obtain ⟨s, hsmem, hsid, hdep⟩ := hab
    obtain ⟨hi, -, -⟩ := finalLevels_assigned steps hnd s hsmem va (by rw [hsid]; exact hva)
    exact hi _ hdep
  | tail hab hbc ih =>
    intro va hva
    obtain ⟨vb, hvb, hlt⟩ := ih va hva
    obtain ⟨s, hsmem, hsid, hdep⟩ := hbc
    obtain ⟨hi, -, -⟩ := finalLevels_assigned steps hnd s hsmem vb (by rw [hsid]; exact hvb)
    obtain ⟨vc, hvc, hlt2⟩ := hi _ hdep
    exact ⟨vc, hvc, by omega⟩

theorem dag_of_cycles_nil (steps : List Step)
    (hnd : (steps.map (fun s => s.stepID)).Nodup)
    (hcy : cycles steps = []) : IsDAG steps := by
  intro id htg
  have hfirst := htg
  obtain ⟨b, hab, -⟩ := Relation.TransGen.head'_iff.mp hfirst
  obtain ⟨s, hsmem, hsid, -⟩ := hab
  obtain ⟨v, hv⟩ := (cycles_eq_nil_iff_levelled steps).mp hcy s hsmem
  have hvid : calculateLevels steps 1 noLevels id = some v := by rw [← hsid]; exact hv
  obtain ⟨vb, hvb, hlt⟩ := transGen_level_lt steps hnd id id htg v hvid
  rw [hvid] at hvb
  cases hvb
  omega

theorem pickUnlevelled_spec (steps : List Step) (hval : ValidIDs steps) (id : String)
    (hid : ∃ s ∈ steps, s.stepID = id ∧ calculateLevels steps 1 noLevels s.stepID = none) :
    edge steps id (pickUnlevelled steps (calculateLevels steps 1 noLevels) id) ∧
    ∃ t ∈ steps, t.stepID = pickUnlevelled steps (calculateLevels steps 1 noLevels) id ∧
      calculateLevels steps 1 noLevels t.stepID = none := by
  obtain ⟨s, hs, hsid, hsnone⟩ := hid
  unfold pickUnlevelled
  cases hfind : steps.find? (fun a => a.stepID == id) with
  | none =>
    have hnone := List.find?_eq_none.mp hfind s hs
    simp [hsid] at hnone
  | some u =>
    have hu := List.find?_some hfind
    have humem : u ∈ steps := List.mem_of_find?_eq_some hfind
    have huid : u.stepID = id := by simpa using hu
    have hueq : u = s := List.inj_on_of_nodup_map hval.1 humem hs (by rw [huid, hsid])
    have hunone : calculateLevels steps 1 noLevels u.stepID = none := by
      rw [hueq]; exact hsnone
    obtain ⟨d, hd, hdnone⟩ := finalLevels_blocked steps u humem hunone
    cases hfd : u.dependsOn.find? (fun d => (calculateLevels steps 1 noLevels d).isNone) with
    | none =>
      have := List.find?_eq_none.mp hfd d hd
      rw [hdnone] at this
      simp at this
    | some d0 =>
      have hd0mem : d0 ∈ u.dependsOn := List.mem_of_find?_eq_some hfd
      have hd0none := List.find?_some hfd
      constructor
      · refine ⟨u, humem, huid, ?_⟩
        show (u.dependsOn.find?
          (fun d => (calculateLevels steps 1 noLevels d).isNone)).getD "" ∈ u.dependsOn
        rw [hfd]
        simpa using hd0mem
      · have hd0id : d0 ∈ steps.map (fun a => a.stepID) := hval.2 u humem d0 hd0mem
        obtain ⟨t, ht, htid⟩ := List.mem_map.mp hd0id
        refine ⟨t, ht, ?_, ?_⟩
        · show t.stepID = (u.dependsOn.find?
            (fun d => (calculateLevels steps 1 noLevels d).isNone)).getD ""
          rw [hfd]
          simpa using htid
        · rw [htid]
          simpa using Option.isNone_iff_eq_none.mp hd0none

theorem cycle_of_cycles_ne_nil (steps : List Step) (hval : ValidIDs steps)
    (hne : cycles steps ≠ []) : ∃ id, Relation.TransGen (edge steps) id id := by
  have hP : ∀ id, (∃ s ∈ steps, s.stepID = id ∧ calculateLevels steps 1 noLevels s.stepID = none) →
      edge steps id (pickUnlevelled steps (calculateLevels steps 1 noLevels) id) ∧
      ∃ t ∈ steps, t.stepID = pickUnlevelled steps (calculateLevels steps 1 noLevels) id ∧
        calculateLevels steps 1 noLevels t.stepID = none :=
    fun id hid => pickUnlevelled_spec steps hval id hid
  obtain ⟨s0, hs0⟩ : ∃ s0, s0 ∈ cycles steps := by
    cases hc : cycles steps with
    | nil => exact absurd hc hne
    | cons x t => exact ⟨x, List.mem_cons_self x t⟩
  have hs0p := (mem_cycles_iff steps s0).mp hs0
  have hiter : ∀ n, ∃ s ∈ steps,
      s.stepID = (pickUnlevelled steps (calculateLevels steps 1 noLevels))^[n] s0.stepID ∧
      calculateLevels steps 1 noLevels s.stepID = none := by
    intro n
    induction n with
    | zero => exact ⟨s0, hs0p.1, rfl, hs0p.2⟩
    | succ m ihm =>
      rw [Function.iterate_succ_apply']
      obtain ⟨s, hsm, hsid, hsnone⟩ := ihm
      exact (hP _ ⟨s, hsm, hsid, hsnone⟩).2
  have hedge : ∀ n, edge steps
      ((pickUnlevelled steps (calculateLevels steps 1 noLevels))^[n] s0.stepID)
      ((pickUnlevelled steps (calculateLevels steps 1 noLevels))^[n + 1] s0.stepID) := by
    intro n
    rw [Function.iterate_succ_apply']
    exact (hP _ (hiter n)).1
  have hchain : ∀ (i m : Nat), 0 < m →
      Relation.TransGen (edge steps)
        ((pickUnlevelled steps (calculateLevels steps 1 noLevels))^[i] s0.stepID)
        ((pickUnlevelled steps (calculateLevels steps 1 noLevels))^[i + m] s0.stepID) := by
    intro i m
    induction m with
    | zero => omega
    | succ p ihp =>
      intro _
      by_cases hp : 0 < p
      · have hstep := hedge (i + p)
        have hrw : i + (p + 1) = (i + p) + 1 := by omega
        rw [hrw]
        exact Relation.TransGen.tail (ihp hp) hstep
      · have hp0 : p = 0 := by omega
        subst hp0
        exact Relation.TransGen.single (hedge i)
  have hmemids : ∀ n,
      (pickUnlevelled steps (calculateLevels steps 1 noLevels))^[n] s0.stepID ∈
        ((cycles steps).map (fun s => s.stepID)).toFinset := by
    intro n
    obtain ⟨s, hsmem, hsid, hsnone⟩ := hiter n
    exact List.mem_toFinset.mpr
      (List.mem_map.mpr ⟨s, (mem_cycles_iff steps s).mpr ⟨hsmem, hsnone⟩, hsid⟩)
  have hcard : (((cycles steps).map (fun s => s.stepID)).toFinset).card <
      (Finset.range ((((cycles steps).map (fun s => s.stepID)).toFinset).card + 1)).card := by
    simp
  have hmaps : ∀ n ∈ Finset.range ((((cycles steps).map (fun s => s.stepID)).toFinset).card + 1),
      (pickUnlevelled steps (calculateLevels steps 1 noLevels))^[n] s0.stepID ∈
        ((cycles steps).map (fun s => s.stepID)).toFinset :=
    fun n _ => hmemids n
  obtain ⟨i, hi, j, hj, hij, heq⟩ :=
    Finset.exists_ne_map_eq_of_card_lt_of_maps_to hcard hmaps
  rcases Nat.lt_or_ge i j with hlt | hge
  · refine ⟨(pickUnlevelled steps (calculateLevels steps 1 noLevels))^[i] s0.stepID, ?_⟩
    have hc := hchain i (j - i) (by omega)
    have hrw : i + (j - i) = j := by omega
    rw [hrw, ← heq] at hc
    exact hc
  · have hlt2 : j < i := by omega
    refine ⟨(pickUnlevelled steps (calculateLevels steps 1 noLevels))^[j] s0.stepID, ?_⟩
    have hc := hchain j (i - j) (by omega)
    have hrw : j + (i - j) = i := by omega
    rw [hrw, heq] at hc
    exact hc

theorem cycles_eq_nil_iff_dag (steps : List Step) (hval : ValidIDs steps) :
    cycles steps = [] ↔ IsDAG steps := by
  constructor
  · exact fun h => dag_of_cycles_nil steps hval.1 h
  · intro hdag
    by_contra hne
    obtain ⟨id, hid⟩ := cycle_of_cycles_ne_nil steps hval hne
    exact hdag id hid

/-- C2: for every list of steps that passes checkStepIDs, cycles returns
exactly the steps that receive no level under the leveling fixed point, in
input order, and it returns an empty sequence if and only if the dependency
graph is a DAG; in particular, for the 7-step graph a:[], b:[a], c:[b], d:[a],
e:[d,f], f:[d,g], g:[d,e] it returns exactly e, f, g in that order. -/
theorem cycles_spec :
    (∀ steps : List Step, checkStepIDs (mkChecklist steps) = true →
      ((cycles steps = [] ↔ IsDAG steps) ∧
       (∀ s, s ∈ cycles steps ↔
          s ∈ steps ∧ calculateLevels steps 1 noLevels s.stepID = none) ∧
       (cycles steps).Sublist steps)) ∧
    cycles g7 = [stepE7, stepF7, stepG7] := by
  constructor
  · intro steps hcs
    have hval : ValidIDs steps := (checkStepIDs_iff (mkChecklist steps)).mp hcs
    exact ⟨cycles_eq_nil_iff_dag steps hval, fun s => mem_cycles_iff steps s,
      List.filter_sublist _⟩
  · decide

theorem cycles_spec_witness :
    checkStepIDs (mkChecklist g7) = true ∧ (cycles g7 = [] ↔ IsDAG g7) :=
  ⟨by decide, (cycles_spec.1 g7 (by decide)).1⟩

/-! The maximum of a list of naturals. -/

theorem le_maxList (l : List Nat) (x : Nat) (hx : x ∈ l) : x ≤ maxList l := by
  induction l with
  | nil => cases hx
  | cons a t ih =>
    rcases List.mem_cons.mp hx with rfl | hxt
    · exact Nat.le_max_left _ _
    · exact Nat.le_trans (ih hxt) (Nat.le_max_right _ _)

theorem maxList_le (l : List Nat) (b : Nat) (h : ∀ x ∈ l, x ≤ b) : maxList l ≤ b := by
  induction l with
  | nil => exact Nat.zero_le b
  | cons a t ih =>
    refine Nat.max_le.mpr ⟨h a (List.mem_cons_self a t), ih ?_⟩
    intro x hx
    exact h x (List.mem_cons_of_mem _ hx)

/-- C7: for every list of steps that passes checkStepIDs and is acyclic, the
leveling assigns every step with no dependencies level 1, and every other step
the level 1 + max(level of its direct dependencies), via the fixed-point
iteration implemented by calculateLevels. -/
theorem calculateLevels_assigns_levels :
    ∀ steps : List Step, checkStepIDs (mkChecklist steps) = true → cycles steps = [] →
      ∀ s ∈ steps, ∃ v, calculateLevels steps 1 noLevels s.stepID = some v ∧
        (s.dependsOn = [] → v = 1) ∧
        (s.dependsOn ≠ [] →
          v = 1 + maxList (s.dependsOn.map
            (fun d => (calculateLevels steps 1 noLevels d).getD 0))) := by
  intro steps hcs hcy s hs
  have hval := (checkStepIDs_iff (mkChecklist steps)).mp hcs
  obtain ⟨v, hv⟩ := (cycles_eq_nil_iff_levelled steps).mp hcy s hs
  obtain ⟨hi, hii, hiii⟩ := finalLevels_assigned steps hval.1 s hs v hv
  have hpos := finalLevels_pos steps _ v hv
  refine ⟨v, hv, ?_, ?_⟩
  · intro hdep
    rcases Nat.lt_or_ge 1 v with h1 | h1
    · obtain ⟨d, hd, -⟩ := hii h1
      rw [hdep] at hd
      cases hd
    · omega
  · intro hdep
    have h1v : 1 < v := by
      rcases Nat.lt_or_ge 1 v with h1 | h1
      · exact h1
      · have hv1 : v = 1 := by omega
        exact absurd (hiii hv1) hdep
    obtain ⟨d0, hd0, hd0lev⟩ := hii h1v
    have hmax : maxList (s.dependsOn.map
        (fun d => (calculateLevels steps 1 noLevels d).getD 0)) = v - 1 := by
      apply Nat.le_antisymm
      · apply maxList_le
        intro x hx
        obtain ⟨d, hd, hdx⟩ := List.mem_map.mp hx
        obtain ⟨w, hw, hlt⟩ := hi d hd
        rw [← hdx, hw]
        simp
        omega
      · apply le_maxList
        refine List.mem_map.mpr ⟨d0, hd0, ?_⟩
        rw [hd0lev]
        rfl
    omega

theorem calculateLevels_assigns_levels_witness :
    checkStepIDs (mkChecklist chainFresh.steps) = true ∧
    cycles chainFresh.steps = [] ∧
    (∃ v, calculateLevels chainFresh.steps 1 noLevels chainB.stepID = some v ∧
      (chainB.dependsOn = [] → v = 1) ∧
      (chainB.dependsOn ≠ [] →
        v = 1 + maxList (chainB.dependsOn.map
          (fun d => (calculateLevels chainFresh.steps 1 noLevels d).getD 0)))) :=
  ⟨by decide, by decide,
    calculateLevels_assigns_levels chainFresh.steps (by decide) (by decide) chainB
      (by decide)⟩

/-! Facts about the stable sort used by nextSteps. -/

theorem insertStable_perm (le : Step → Step → Bool) (x : Step) (l : List Step) :
    (insertStable le x l).Perm (x :: l) := by
  induction l with
  | nil => exact List.Perm.refl _
  | cons y ys ih =>
    rw [insertStable]
    by_cases h : (le y x && !le x y) = true
    · rw [if_pos h]
      exact (ih.cons y).trans (List.Perm.swap x y ys)
    · rw [if_neg h]

theorem stableSort_perm (le : Step → Step → Bool) (l : List Step) :
    (stableSort le l).Perm l := by
  induction l with
  | nil => exact List.Perm.refl _
  | cons x xs ih =>
    rw [stableSort]
    exact (insertStable_perm le x (stableSort le xs)).trans (ih.cons x)

theorem mem_stableSort (le : Step → Step → Bool) (l : List Step) (a : Step) :
    a ∈ stableSort le l ↔ a ∈ l :=
  (stableSort_perm le l).mem_iff

theorem levelLe_total (m : LevelMap) (a b : Step) :
    levelLe m a b = true ∨ levelLe m b a = true := by
  unfold levelLe
  cases m a.stepID with
  | none => left; rfl
  | some la =>
    cases m b.stepID with
    | none => left; rfl
    | some lb =>
      rcases Nat.le_total la lb with h | h
      · left; simpa using h
      · right; simpa using h

theorem levelLe_trans_mid (m : LevelMap) (a b c : Step)
    (hb : (m b.stepID).isSome = true)
    (h1 : levelLe m a b = true) (h2 : levelLe m b c = true) : levelLe m a c = true := by
  unfold levelLe at h1 h2 ⊢
  cases ha : m a.stepID with
  | none => rfl
  | some la =>
    cases hc : m c.stepID with
    | none => rfl
    | some lc =>
      cases hbv : m b.stepID with
      | none => rw [hbv] at hb; cases hb
      | some lb =>
        rw [ha, hbv] at h1
        rw [hbv, hc] at h2
        rw [decide_eq_true_iff] at h1 h2
        simpa using Nat.le_trans h1 h2

theorem insertStable_pairwise (m : LevelMap) (x : Step) (l : List Step)
    (hmid : ∀ s ∈ l, (m s.stepID).isSome = true)
    (hl : l.Pairwise (fun a b => levelLe m a b = true)) :
    (insertStable (levelLe m) x l).Pairwise (fun a b => levelLe m a b = true) := by
  induction l with
  | nil => simp [insertStable]
  | cons y ys ih =>
    rw [insertStable]
    have hl2 := List.pairwise_cons.mp hl
    by_cases h : (levelLe m y x && !levelLe m x y) = true
    · rw [if_pos h]
      rw [List.pairwise_cons]
      constructor
      · intro z hz
        rcases List.mem_cons.mp ((insertStable_perm (levelLe m) x ys).mem_iff.mp hz) with
          rfl | hzys
        · rw [Bool.and_eq_true] at h
          exact h.1
        · exact hl2.1 z hzys
      · exact ih (fun s hs => hmid s (List.mem_cons_of_mem _ hs)) hl2.2
    · rw [if_neg h]
      have hxy : levelLe m x y = true := by
        rcases levelLe_total m x y with h1 | h1
        · exact h1
        · by_cases h2 : levelLe m x y = true
          · exact h2
          · exfalso
            apply h
            rw [h1, Bool.eq_false_iff.mpr h2]
            rfl
      rw [List.pairwise_cons]
      constructor
      · intro z hz
        rcases List.mem_cons.mp hz with rfl | hzys
        · exact hxy
        · exact levelLe_trans_mid m x y z (hmid y (List.mem_cons_self y ys)) hxy
            (hl2.1 z hzys)
      · exact hl

theorem stableSort_pairwise (m : LevelMap) (l : List Step)
    (hall : ∀ s ∈ l, (m s.stepID).isSome = true) :
    (stableSort (levelLe m) l).Pairwise (fun a b => levelLe m a b = true) := by
  induction l with
  | nil => simp [stableSort]
  | cons x xs ih =>
    rw [stableSort]
    refine insertStable_pairwise m x (stableSort (levelLe m) xs) ?_
      (ih (fun s hs => hall s (List.mem_cons_of_mem _ hs)))
    intro s hs
    exact hall s (List.mem_cons_of_mem _ ((stableSort_perm _ xs).mem_iff.mp hs))

theorem insertStable_filter_level (m : LevelMap) (L : Nat) (x : Step) (l : List Step) :
    (insertStable (levelLe m) x l).filter (fun s => m s.stepID == some L) =
      (if (m x.stepID == some L) = true then [x] else []) ++
        l.filter (fun s => m s.stepID == some L) := by
  induction l with
  | nil =>
    by_cases hx : (m x.stepID == some L) = true <;>
      simp [insertStable, List.filter, hx]
  | cons y ys ih =>
    rw [insertStable]
    by_cases h : (levelLe m y x && !levelLe m x y) = true
    · rw [if_pos h]
      by_cases hx : (m x.stepID == some L) = true
      · have hy : (m y.stepID == some L) = false := by
          by_cases hyy : (m y.stepID == some L) = true
          · exfalso
            have hmy : m y.stepID = some L := by simpa using hyy
            have hmx : m x.stepID = some L := by simpa using hx
            have hle : levelLe m x y = true := by
              unfold levelLe
              rw [hmx, hmy]
              simp
            rw [Bool.and_eq_true] at h
            rw [Bool.not_eq_true'] at h
            rw [h.2] at hle
            cases hle
          · exact Bool.eq_false_iff.mpr hyy
        simp [List.filter_cons, ih, hx, hy]
      · simp [List.filter_cons, ih, hx]
    · rw [if_neg h]
      by_cases hx : (m x.stepID == some L) = true <;>
        simp [List.filter_cons, hx]

theorem stableSort_filter_level (m : LevelMap) (L : Nat) (l : List Step) :
    (stableSort (levelLe m) l).filter (fun s => m s.stepID == some L) =
      l.filter (fun s => m s.stepID == some L) := by
  induction l with
  | nil => rfl
  | cons x xs ih =>
    rw [stableSort, insertStable_filter_level, ih, List.filter_cons]
    by_cases hx : (m x.stepID == some L) = true <;> simp [hx]

/-! Correctness of the transitive-dependency accumulation in nextSteps. -/

theorem addTransDepsLoop_other (sid : String) (ds : List String) (m : TDMap) (id : String)
    (hne : id ≠ sid) : addTransDepsLoop sid m ds id = m id := by
  induction ds generalizing m with
  | nil => rfl
  | cons d rest ih =>
    rw [addTransDepsLoop, ih]
    exact updateMap_ne _ _ _ _ hne

theorem addTransDepsLoop_self (sid : String) (ds : List String) (m : TDMap)
    (init : List String) (hne : ∀ d ∈ ds, d ≠ sid) :
    addTransDepsLoop sid (updateMap m sid init) ds sid =
      some (init ++ (ds.map (fun d => (m d).getD [])).flatten) := by
  induction ds generalizing init with
  | nil => simp [addTransDepsLoop, updateMap_self]
  | cons d rest ih =>
    rw [addTransDepsLoop]
    have hmaps : updateMap (updateMap m sid init) sid
        (((updateMap m sid init) sid).getD [] ++ ((updateMap m sid init) d).getD []) =
        updateMap m sid (init ++ (m d).getD []) := by
      funext x
      by_cases hx : x = sid
      · have hd : d ≠ sid := hne d (List.mem_cons_self d rest)
        simp [updateMap, hx, hd]
      · simp [updateMap, hx]
    rw [hmaps, ih (init ++ (m d).getD []) (fun d2 hd2 => hne d2 (List.mem_cons_of_mem _ hd2))]
    simp

theorem addTransDeps_self (m : TDMap) (s : Step)
    (hne : ∀ d ∈ s.dependsOn, d ≠ s.stepID) :
    addTransDeps m s s.stepID =
      some (s.dependsOn ++ (s.dependsOn.map (fun d => (m d).getD [])).flatten) := by
  unfold addTransDeps
  exact addTransDepsLoop_self s.stepID s.dependsOn m s.dependsOn hne

theorem addTransDeps_other (m : TDMap) (s : Step) (id : String) (hne : id ≠ s.stepID) :
    addTransDeps m s id = m id := by
  unfold addTransDeps
  rw [addTransDepsLoop_other s.stepID s.dependsOn _ id hne]
  exact updateMap_ne _ _ _ _ hne

theorem buildTransDeps_spec_aux (steps : List Step) (hval : ValidIDs steps)
    (hdag : IsDAG steps)
    (hlev : ∀ s ∈ steps, ∃ v, calculateLevels steps 1 noLevels s.stepID = some v) :
    ∀ (rest P : List Step) (m : TDMap),
      stableSort (levelLe (calculateLevels steps 1 noLevels)) steps = P ++ rest →
      (∀ p ∈ P, ∀ x, x ∈ (m p.stepID).getD [] ↔
        Relation.TransGen (edge steps) p.stepID x) →
      ∀ p ∈ P ++ rest, ∀ x, x ∈ ((buildTransDeps m rest) p.stepID).getD [] ↔
        Relation.TransGen (edge steps) p.stepID x := by
  intro rest
  induction rest with
  | nil =>
    intro P m hsplit hJ p hp x
    rw [List.append_nil] at hp
    exact hJ p hp x
  | cons s rest2 ih =>
    intro P m hsplit hJ
    have hSnd : ((stableSort (levelLe (calculateLevels steps 1 noLevels)) steps).map
        (fun a => a.stepID)).Nodup :=
      (((stableSort_perm _ steps).map (fun a => a.stepID)).nodup_iff).mpr hval.1
    have hSp := stableSort_pairwise (calculateLevels steps 1 noLevels) steps
      (fun a ha => by
        obtain ⟨v, hv⟩ := hlev a ha
        rw [hv]
        rfl)
    rw [hsplit] at hSnd hSp
    have hsid_notP : ∀ p ∈ P, p.stepID ≠ s.stepID := by
      rw [List.map_append, List.nodup_append] at hSnd
      intro p hp heq
      exact hSnd.2.2 (List.mem_map.mpr ⟨p, hp, rfl⟩)
        (by rw [heq]; exact List.mem_map.mpr ⟨s, List.mem_cons_self s rest2, rfl⟩)
    have hsmem : s ∈ steps := by
      rw [← mem_stableSort (levelLe (calculateLevels steps 1 noLevels)) steps, hsplit]
      exact List.mem_append_right P (List.mem_cons_self s rest2)
    obtain ⟨v, hv⟩ := hlev s hsmem
    have hne_self : ∀ d ∈ s.dependsOn, d ≠ s.stepID := by
      intro d hd heq
      exact hdag s.stepID (Relation.TransGen.single ⟨s, hsmem, rfl, by rw [← heq]; exact hd⟩)
    have hdep_proc : ∀ d ∈ s.dependsOn, ∃ t ∈ P, t.stepID = d := by
      intro d hd
      obtain ⟨hi, -, -⟩ := finalLevels_assigned steps hval.1 s hsmem v hv
      obtain ⟨w, hw, hlt⟩ := hi d hd
      obtain ⟨t0, ht0, ht0id⟩ := List.mem_map.mp (hval.2 s hsmem d hd)
      have ht0S : t0 ∈ P ++ s :: rest2 := by
        rw [← hsplit]
        exact (mem_stableSort _ steps t0).mpr ht0
      have ht0lev : calculateLevels steps 1 noLevels t0.stepID = some w := by
        rw [ht0id]
        exact hw
      rcases List.mem_append.mp ht0S with hP | hR
      · exact ⟨t0, hP, ht0id⟩
      · exfalso
        rcases List.mem_cons.mp hR with rfl | hR2
        · rw [hv] at ht0lev
          cases ht0lev
          omega
        · have hpw : (List.Pairwise (fun a b => levelLe (calculateLevels steps 1 noLevels) a b
              = true) (s :: rest2)) :=
            (List.pairwise_append.mp hSp).2.1
          have hrel := (List.pairwise_cons.mp hpw).1 t0 hR2
          unfold levelLe at hrel
          rw [hv, ht0lev] at hrel
          rw [decide_eq_true_iff] at hrel
          omega
    have hJ2 : ∀ p ∈ P ++ [s], ∀ x, x ∈ ((addTransDeps m s) p.stepID).getD [] ↔
        Relation.TransGen (edge steps) p.stepID x := by
      intro p hp x
      rcases List.mem_append.mp hp with hpP | hps
      · rw [addTransDeps_other m s p.stepID (hsid_notP p hpP)]
        exact hJ p hpP x
      · have hpeq : p = s := by
          cases List.mem_singleton.mp hps
          rfl
        subst hpeq
        rw [addTransDeps_self m p hne_self]
        simp only [Option.getD_some, List.mem_append]
        constructor
        · intro hx
          rcases hx with hxd | hxf
          · exact Relation.TransGen.single ⟨p, hsmem, rfl, hxd⟩
          · obtain ⟨l0, hl0, hxl0⟩ := List.mem_flatten.mp hxf
            obtain ⟨d, hd, hdl0⟩ := List.mem_map.mp hl0
            obtain ⟨t, htP, htid⟩ := hdep_proc d hd
            have hxiff := hJ t htP x
            rw [htid] at hxiff
            rw [← hdl0] at hxl0
            have htrans : Relation.TransGen (edge steps) d x := hxiff.mp hxl0
            exact Relation.TransGen.head ⟨p, hsmem, rfl, hd⟩ htrans
        · intro htg
          obtain ⟨b, hab, hbx⟩ := Relation.TransGen.head'_iff.mp htg
          obtain ⟨u, humem, huid, hbu⟩ := hab
          have hueq : u = p := List.inj_on_of_nodup_map hval.1 humem hsmem huid
          rw [hueq] at hbu
          rcases Relation.reflTransGen_iff_eq_or_transGen.mp hbx with rfl | htbx
          · exact Or.inl hbu
          · obtain ⟨t, htP, htid⟩ := hdep_proc b hbu
            have hxiff := hJ t htP x
            rw [htid] at hxiff
            refine Or.inr (List.mem_flatten.mpr ⟨(m b).getD [], ?_, hxiff.mpr htbx⟩)
            exact List.mem_map.mpr ⟨b, hbu, rfl⟩
    have hres := ih (P ++ [s]) (addTransDeps m s)
      (by rw [hsplit, List.append_assoc, List.singleton_append]) hJ2
    intro p hp x
    have hp2 : p ∈ (P ++ [s]) ++ rest2 := by
      rw [List.append_assoc, List.singleton_append]
      exact hp
    exact hres p hp2 x

theorem buildTransDeps_spec (steps : List Step) (hval : ValidIDs steps) (hdag : IsDAG steps)
    (hlev : ∀ s ∈ steps, ∃ v, calculateLevels steps 1 noLevels s.stepID = some v) :
    ∀ p ∈ stableSort (levelLe (calculateLevels steps 1 noLevels)) steps, ∀ x,
      x ∈ ((buildTransDeps (fun _ => none)
          (stableSort (levelLe (calculateLevels steps 1 noLevels)) steps)) p.stepID).getD []
        ↔ Relation.TransGen (edge steps) p.stepID x := by
  intro p hp x
  exact buildTransDeps_spec_aux steps hval hdag hlev
    (stableSort (levelLe (calculateLevels steps 1 noLevels)) steps) [] (fun _ => none)
    rfl (by simp) p hp x

/-! Readiness resolution. -/

theorem nextSteps_eq (cl : Checklist) :
    nextSteps cl =
      ((stableSort (levelLe (calculateLevels cl.steps 1 noLevels)) cl.steps).filter
        (fun s => !isStepComplete s)).filter
        (fun s => (((buildTransDeps (fun _ => none)
            (stableSort (levelLe (calculateLevels cl.steps 1 noLevels)) cl.steps))
              s.stepID).getD []).all
          (fun id => (stableSort (levelLe (calculateLevels cl.steps 1 noLevels))
            cl.steps).any (fun a => isStepComplete a && a.stepID == id))) := rfl

theorem transGen_target_mem (steps : List Step) (hval : ValidIDs steps) (a x : String)
    (h : Relation.TransGen (edge steps) a x) : x ∈ steps.map (fun s => s.stepID) := by
  induction h with
  | single hab =>
    obtain ⟨s, hs, -, hdep⟩ := hab
    exact hval.2 s hs _ hdep
  | tail hab hbc ih =>
    obtain ⟨s, hs, -, hdep⟩ := hbc
    exact hval.2 s hs _ hdep

theorem nextSteps_mem_iff (cl : Checklist) (hval : ValidIDs cl.steps)
    (hcy : cycles cl.steps = []) (t : Step) :
    t ∈ nextSteps cl ↔
      t ∈ cl.steps ∧ isStepComplete t = false ∧
        ∀ u ∈ cl.steps, Relation.TransGen (edge cl.steps) t.stepID u.stepID →
          isStepComplete u = true := by
  have hdag : IsDAG cl.steps := (cycles_eq_nil_iff_dag cl.steps hval).mp hcy
  have hlev := (cycles_eq_nil_iff_levelled cl.steps).mp hcy
  rw [nextSteps_eq, List.mem_filter, List.mem_filter, mem_stableSort]
  constructor
  · rintro ⟨⟨htS, htinc⟩, hall⟩
    refine ⟨htS, by simpa using htinc, ?_⟩
    intro u hu htg
    have hmem := (buildTransDeps_spec cl.steps hval hdag hlev t
      ((mem_stableSort _ _ t).mpr htS) u.stepID).mpr htg
    have hany := (List.all_eq_true.mp hall) u.stepID hmem
    obtain ⟨w, hwS, hw2⟩ := List.any_eq_true.mp hany
    rw [Bool.and_eq_true] at hw2
    have hwid : w.stepID = u.stepID := by simpa using hw2.2
    have hweq : w = u :=
      List.inj_on_of_nodup_map hval.1 ((mem_stableSort _ _ w).mp hwS) hu hwid
    rw [← hweq]
    exact hw2.1
  · rintro ⟨htmem, htinc, hdeps⟩
    refine ⟨⟨htmem, by simp [htinc]⟩, ?_⟩
    rw [List.all_eq_true]
    intro id hid
    have htg := (buildTransDeps_spec cl.steps hval hdag hlev t
      ((mem_stableSort _ _ t).mpr htmem) id).mp hid
    have hid_step : id ∈ cl.steps.map (fun a => a.stepID) :=
      transGen_target_mem cl.steps hval t.stepID id htg
    obtain ⟨u, hu, huid⟩ := List.mem_map.mp hid_step
    have hcomp : isStepComplete u = true := hdeps u hu (by rw [huid]; exact htg)
    rw [List.any_eq_true]
    exact ⟨u, (mem_stableSort _ _ u).mpr hu, by simp [hcomp, huid]⟩

theorem nextSteps_pairwise (cl : Checklist) (hval : ValidIDs cl.steps)
    (hcy : cycles cl.steps = []) :
    (nextSteps cl).Pairwise
      (fun a b => levelLe (calculateLevels cl.steps 1 noLevels) a b = true) := by
  have hlev := (cycles_eq_nil_iff_levelled cl.steps).mp hcy
  have hSp := stableSort_pairwise (calculateLevels cl.steps 1 noLevels) cl.steps
    (fun a ha => by
      obtain ⟨v, hv⟩ := hlev a ha
      rw [hv]
      rfl)
  rw [nextSteps_eq]
  exact List.Pairwise.sublist
    (List.Sublist.trans (List.filter_sublist _) (List.filter_sublist _)) hSp

theorem nextSteps_filter_level_sublist (cl : Checklist) (L : Nat) :
    ((nextSteps cl).filter
      (fun s => calculateLevels cl.steps 1 noLevels s.stepID == some L)).Sublist
        cl.steps := by
  rw [nextSteps_eq]
  have h2 : (cl.steps.filter
      (fun s => calculateLevels cl.steps 1 noLevels s.stepID == some L)).Sublist cl.steps :=
    List.filter_sublist _
  refine List.Sublist.trans ?_ h2
  rw [← stableSort_filter_level (calculateLevels cl.steps 1 noLevels) L cl.steps]
  exact List.Sublist.trans
    (List.Sublist.filter _ (List.filter_sublist _))
    (List.Sublist.filter _ (List.filter_sublist _))

/-- C1: for every checklist that passes checkStepIDs and whose dependency
graph is acyclic, nextSteps returns exactly the steps that are not complete
and all of whose transitive dependencies are complete, ordered by ascending
level with level ties broken by the original input order (a stable sort); in
particular, for the three-step chain with no completions it returns only a,
and with only b complete it still returns only a. -/
theorem nextSteps_correct :
    (∀ cl : Checklist, checkStepIDs cl = true → cycles cl.steps = [] →
      ((∀ t, t ∈ nextSteps cl ↔
          t ∈ cl.steps ∧ isStepComplete t = false ∧
            ∀ u ∈ cl.steps, Relation.TransGen (edge cl.steps) t.stepID u.stepID →
              isStepComplete u = true) ∧
       (nextSteps cl).Pairwise
         (fun a b => levelLe (calculateLevels cl.steps 1 noLevels) a b = true) ∧
       (∀ L : Nat, ((nextSteps cl).filter
         (fun s => calculateLevels cl.steps 1 noLevels s.stepID == some L)).Sublist
           cl.steps))) ∧
    nextSteps chainFresh = [chainA] ∧ nextSteps chainOnlyB = [chainA] := by
  refine ⟨?_, by decide, by decide⟩
  intro cl hcs hcy
  have hval := (checkStepIDs_iff cl).mp hcs
  exact ⟨fun t => nextSteps_mem_iff cl hval hcy t,
    nextSteps_pairwise cl hval hcy,
    fun L => nextSteps_filter_level_sublist cl L⟩

theorem nextSteps_correct_witness :
    checkStepIDs chainFresh = true ∧ cycles chainFresh.steps = [] ∧
    (chainA ∈ nextSteps chainFresh ↔
      chainA ∈ chainFresh.steps ∧ isStepComplete chainA = false ∧
        ∀ u ∈ chainFresh.steps,
          Relation.TransGen (edge chainFresh.steps) chainA.stepID u.stepID →
            isStepComplete u = true) :=
  ⟨by decide, by decide,
    (nextSteps_correct.1 chainFresh (by decide) (by decide)).1 chainA⟩

/-- C10: dependency satisfaction in nextSteps depends only on completion,
never on recorded success: a Raw or Method step is complete exactly when its
txHash is set, whatever the success flag holds, so a completed-but-failed
transaction still satisfies its dependents, which nextSteps still returns. -/
theorem dependency_satisfaction_ignores_success :
    (∀ (e i : String) (de : Option String) (dep : List String) (c ta cd : String)
        (v : Option String) (ma : Option AbiFunctionFragment) (th : Option String)
        (su : Option Bool),
      isStepComplete ⟨e, i, de, dep, .raw c ta cd v ma th su⟩ = th.isSome) ∧
    (∀ (e i : String) (de : Option String) (dep : List String) (c ta : String)
        (ma : AbiFunctionFragment) (ps : List Template) (v : Option String)
        (th : Option String) (su : Option Bool) (o : Option String),
      isStepComplete ⟨e, i, de, dep, .method c ta ma ps v th su o⟩ = th.isSome) ∧
    (∀ cl : Checklist, checkStepIDs cl = true → cycles cl.steps = [] →
      ∀ t ∈ cl.steps, isStepComplete t = false →
        (∀ u ∈ cl.steps, Relation.TransGen (edge cl.steps) t.stepID u.stepID →
          isStepComplete u = true) → t ∈ nextSteps cl) ∧
    nextSteps failedDepChecklist = [depOnFailed] := by
  refine ⟨fun _ _ _ _ _ _ _ _ _ _ _ => rfl, fun _ _ _ _ _ _ _ _ _ _ _ _ => rfl, ?_,
    by decide⟩
  intro cl hcs hcy t htmem htinc hdeps
  have hval := (checkStepIDs_iff cl).mp hcs
  exact (nextSteps_mem_iff cl hval hcy t).mpr ⟨htmem, htinc, hdeps⟩

theorem dependency_satisfaction_ignores_success_witness :
    checkStepIDs failedDepChecklist = true ∧ cycles failedDepChecklist.steps = [] ∧
    isStepComplete depOnFailed = false ∧ isStepComplete rawFailed = true ∧
    depOnFailed ∈ nextSteps failedDepChecklist :=
  ⟨by decide, by decide, by decide, by decide,
    dependency_satisfaction_ignores_success.2.2.1 failedDepChecklist (by decide) (by decide)
      depOnFailed (by decide) (by decide)
      (by
        intro u hu htg
        rcases List.mem_cons.mp hu with rfl | hu2
        · rfl
        · rcases List.mem_cons.mp hu2 with rfl | hu3
          · exfalso
            have hval := (checkStepIDs_iff failedDepChecklist).mp (by decide)
            have hdag := (cycles_eq_nil_iff_dag failedDepChecklist.steps hval).mp (by decide)
            exact hdag depOnFailed.stepID htg
          · cases hu3)⟩

/-! The execution context builder. -/

theorem ctxEntry_executing (s : Step) : (ctxEntry s).executing = some false := by
  unfold ctxEntry
  cases s.data <;> rfl

theorem buildContext_executing (l : List Step) :
    ∀ (ctx : ExecutionContext), (∀ id r, ctx id = some r → r.executing = some false) →
      ∀ id r, buildContext ctx l id = some r → r.executing = some false := by
  induction l with
  | nil => intro ctx hctx id r h; exact hctx id r h
  | cons a t ih =>
    intro ctx hctx id r h
    refine ih _ ?_ id r h
    intro id2 r2 h2
    by_cases hx : id2 = a.stepID
    · rw [hx, updateMap_self] at h2
      cases h2
      exact ctxEntry_executing a
    · rw [updateMap_ne _ _ _ _ hx] at h2
      exact hctx id2 r2 h2

theorem buildContext_not_mem (l : List Step) :
    ∀ (ctx : ExecutionContext) (id : String), (∀ s ∈ l, s.stepID ≠ id) →
      buildContext ctx l id = ctx id := by
  induction l with
  | nil => intro ctx id _; rfl
  | cons a t ih =>
    intro ctx id hne
    rw [buildContext, ih _ _ (fun s hs => hne s (List.mem_cons_of_mem _ hs))]
    exact updateMap_ne _ _ _ _ (fun h => hne a (List.mem_cons_self a t) h.symm)

theorem buildContext_isSome (l : List Step) :
    ∀ (ctx : ExecutionContext) (id : String),
      (buildContext ctx l id).isSome = true ↔
        (∃ s ∈ l, s.stepID = id) ∨ (ctx id).isSome = true := by
  induction l with
  | nil =>
    intro ctx id
    simp [buildContext]
  | cons a t ih =>
    intro ctx id
    rw [buildContext, ih]
    constructor
    · rintro (⟨s, hs, hsid⟩ | hsome)
      · exact Or.inl ⟨s, List.mem_cons_of_mem _ hs, hsid⟩
      · by_cases hx : id = a.stepID
        · exact Or.inl ⟨a, List.mem_cons_self a t, hx.symm⟩
        · rw [updateMap_ne _ _ _ _ hx] at hsome
          exact Or.inr hsome
    · rintro (⟨s, hs, hsid⟩ | hsome)
      · rcases List.mem_cons.mp hs with rfl | hst
        · right
          rw [← hsid, updateMap_self]
          rfl
        · exact Or.inl ⟨s, hst, hsid⟩
      · by_cases hx : id = a.stepID
        · right
          rw [hx, updateMap_self]
          rfl
        · right
          rw [updateMap_ne _ _ _ _ hx]
          exact hsome

theorem buildContext_mem_nodup (l : List Step) :
    ∀ (ctx : ExecutionContext) (s : Step), (l.map (fun a => a.stepID)).Nodup → s ∈ l →
      buildContext ctx l s.stepID = some (ctxEntry s) := by
  induction l with
  | nil => intro ctx s _ hs; cases hs
  | cons a t ih =>
    intro ctx s hnd hs
    rw [List.map_cons, List.nodup_cons] at hnd
    rcases List.mem_cons.mp hs with rfl | hst
    · rw [buildContext, buildContext_not_mem]
      · exact updateMap_self _ _ _
      · intro u hu heq
        exact hnd.1 (List.mem_map.mpr ⟨u, hu, heq⟩)
    · rw [buildContext]
      exact ih _ s hnd.2 hst

theorem generateExecutionContext_entry (cl : Checklist)
    (hnd : (cl.steps.map (fun s => s.stepID)).Nodup) (s : Step) (hs : s ∈ cl.steps)
    (hc : isStepComplete s = true) :
    generateExecutionContext cl s.stepID = some (ctxEntry s) := by
  unfold generateExecutionContext
  refine buildContext_mem_nodup _ _ s ?_ ?_
  · exact List.Nodup.sublist (List.Sublist.map _ (List.filter_sublist _)) hnd
  · exact List.mem_filter.mpr ⟨hs, hc⟩

theorem generateExecutionContext_isSome (cl : Checklist) (id : String) :
    (generateExecutionContext cl id).isSome = true ↔
      ∃ s ∈ cl.steps, isStepComplete s = true ∧ s.stepID = id := by
  unfold generateExecutionContext
  rw [buildContext_isSome]
  constructor
  · rintro (⟨s, hs, hsid⟩ | hsome)
    · obtain ⟨hsm, hsc⟩ := List.mem_filter.mp hs
      exact ⟨s, hsm, hsc, hsid⟩
    · cases hsome
  · rintro ⟨s, hs, hsc, hsid⟩
    exact Or.inl ⟨s, List.mem_filter.mpr ⟨hs, hsc⟩, hsid⟩

/-- C3: generateExecutionContext contains an entry exactly for each complete
step, keyed by stepID, with executing false in every entry and the per-kind
success and value of the table in the specification; it is pure (the same
checklist state always yields the same context) and never includes an entry
for an incomplete step.  The stepID-uniqueness invariant of the data model is
assumed. -/
theorem generateExecutionContext_spec :
    ∀ cl : Checklist, (cl.steps.map (fun s => s.stepID)).Nodup →
      (generateExecutionContext cl = generateExecutionContext cl) ∧
      (∀ id r, generateExecutionContext cl id = some r → r.executing = some false) ∧
      (∀ id, (generateExecutionContext cl id).isSome = true ↔
        ∃ s ∈ cl.steps, isStepComplete s = true ∧ s.stepID = id) ∧
      (∀ s ∈ cl.steps, isStepComplete s = true →
        (∀ value, s.data = .manual value →
          generateExecutionContext cl s.stepID = some ⟨some true, value, some false⟩) ∧
        (∀ c ta ma ps o bn bh, s.data = .view c ta ma ps o bn bh →
          generateExecutionContext cl s.stepID = some ⟨some true, o, some false⟩) ∧
        (∀ c ta cd v ma th su, s.data = .raw c ta cd v ma th su →
          generateExecutionContext cl s.stepID =
            some ⟨some (su.getD false), th, some false⟩) ∧
        (∀ c ta ma ps v th su o, s.data = .method c ta ma ps v th su o →
          generateExecutionContext cl s.stepID =
            some ⟨some (su.getD false), o, some false⟩)) ∧
      (∀ s ∈ cl.steps, isStepComplete s = false →
        generateExecutionContext cl s.stepID = none) := by
  intro cl hnd
  refine ⟨rfl, ?_, fun id => generateExecutionContext_isSome cl id, ?_, ?_⟩
  · intro id r h
    unfold generateExecutionContext at h
    exact buildContext_executing _ _ (fun id2 r2 h2 => by cases h2) id r h
  · intro s hs hc
    have hentry := generateExecutionContext_entry cl hnd s hs hc
    refine ⟨?_, ?_, ?_, ?_⟩
    · intro value hdata
      rw [hentry]
      unfold ctxEntry
      rw [hdata]
    · intro c ta ma ps o bn bh hdata
      rw [hentry]
      unfold ctxEntry
      rw [hdata]
    · intro c ta cd v ma th su hdata
      rw [hentry]
      unfold ctxEntry
      rw [hdata]
    · intro c ta ma ps v th su o hdata
      rw [hentry]
      unfold ctxEntry
      rw [hdata]
  · intro s hs hinc
    cases hv : generateExecutionContext cl s.stepID with
    | none => rfl
    | some r =>
      exfalso
      have hissome : (generateExecutionContext cl s.stepID).isSome = true := by
        rw [hv]
        rfl
      obtain ⟨w, hw, hwc, hwid⟩ := (generateExecutionContext_isSome cl s.stepID).mp hissome
      have hweq : w = s := List.inj_on_of_nodup_map hnd hw hs hwid
      rw [hweq] at hwc
      rw [hwc] at hinc
      cases hinc

theorem generateExecutionContext_spec_witness :
    ((ctxDemoChecklist.steps.map (fun s => s.stepID)).Nodup) ∧
    (∀ id, (generateExecutionContext ctxDemoChecklist id).isSome = true ↔
      ∃ s ∈ ctxDemoChecklist.steps, isStepComplete s = true ∧ s.stepID = id) :=
  ⟨by decide, (generateExecutionContext_spec ctxDemoChecklist (by decide)).2.2.1⟩

/-- C4: isStepComplete is true iff the kind's result field is set - value for
Manual, output for View, txHash for Raw and Method - independent of the
success field in every case. -/
theorem isStepComplete_spec :
    (∀ (e i : String) (de : Option String) (dep : List String) (value : Option String),
      isStepComplete ⟨e, i, de, dep, .manual value⟩ = value.isSome) ∧
    (∀ (e i : String) (de : Option String) (dep : List String) (c ta : String)
        (ma : AbiFunctionFragment) (ps : List Template) (o bn bh : Option String),
      isStepComplete ⟨e, i, de, dep, .view c ta ma ps o bn bh⟩ = o.isSome) ∧
    (∀ (e i : String) (de : Option String) (dep : List String) (c ta cd : String)
        (v : Option String) (ma : Option AbiFunctionFragment) (th : Option String)
        (su : Option Bool),
      isStepComplete ⟨e, i, de, dep, .raw c ta cd v ma th su⟩ = th.isSome) ∧
    (∀ (e i : String) (de : Option String) (dep : List String) (c ta : String)
        (ma : AbiFunctionFragment) (ps : List Template) (v : Option String)
        (th : Option String) (su : Option Bool) (o : Option String),
      isStepComplete ⟨e, i, de, dep, .method c ta ma ps v th su o⟩ = th.isSome) ∧
    (∀ (e i : String) (de : Option String) (dep : List String) (c ta cd : String)
        (v : Option String) (ma : Option AbiFunctionFragment) (th : Option String)
        (su1 su2 : Option Bool),
      isStepComplete ⟨e, i, de, dep, .raw c ta cd v ma th su1⟩ =
        isStepComplete ⟨e, i, de, dep, .raw c ta cd v ma th su2⟩) ∧
    (∀ (e i : String) (de : Option String) (dep : List String) (c ta : String)
        (ma : AbiFunctionFragment) (ps : List Template) (v : Option String)
        (th : Option String) (su1 su2 : Option Bool) (o : Option String),
      isStepComplete ⟨e, i, de, dep, .method c ta ma ps v th su1 o⟩ =
        isStepComplete ⟨e, i, de, dep, .method c ta ma ps v th su2 o⟩) :=
  ⟨fun _ _ _ _ _ => rfl, fun _ _ _ _ _ _ _ _ _ _ _ => rfl,
   fun _ _ _ _ _ _ _ _ _ _ _ => rfl, fun _ _ _ _ _ _ _ _ _ _ _ _ => rfl,
   fun _ _ _ _ _ _ _ _ _ _ _ _ => rfl, fun _ _ _ _ _ _ _ _ _ _ _ _ _ => rfl⟩

/-! The step completers. -/

theorem completeViewStep_mismatch (ctx : ExecutionContext) (bn : String) (o : ViewOracle)
    (e i : String) (de : Option String) (dep : List String) (c ta : String)
    (ma : AbiFunctionFragment) (ps : List Template) (out bno bh : Option String)
    (hne : o.actualChainID ≠ c) :
    completeViewStep ctx ⟨e, i, de, dep, .view c ta ma ps out bno bh⟩ bn o =
      ⟨some ("You are attempting to query the wrong chain: step = " ++ c ++
          ", actual = " ++ o.actualChainID),
       ⟨e, i, de, dep, .view c ta ma ps out bno bh⟩,
       markExecuting ctx i⟩ := by
  simp only [completeViewStep]
  rw [if_pos hne]

theorem completeMethodStep_mismatch (ctx : ExecutionContext) (sender : String)
    (o : MethodOracle) (e i : String) (de : Option String) (dep : List String)
    (c ta : String) (ma : AbiFunctionFragment) (ps : List Template)
    (v th : Option String) (su : Option Bool) (out : Option String)
    (hne : o.actualChainID ≠ c) :
    completeMethodStep ctx ⟨e, i, de, dep, .method c ta ma ps v th su out⟩ sender o =
      ⟨some ("You are attempting to submit this transaction on the wrong chain: step = " ++
          c ++ ", actual = " ++ o.actualChainID),
       ⟨e, i, de, dep, .method c ta ma ps v th su out⟩,
       markExecuting ctx i⟩ := by
  simp only [completeMethodStep]
  rw [if_pos hne]

theorem markExecuting_of_isSome (ctx : ExecutionContext) (id : String)
    (h : (ctx id).isSome = true) : markExecuting ctx id = ctx := by
  unfold markExecuting
  cases hv : ctx id with
  | none => rw [hv] at h; cases h
  | some r => simp [hv]

theorem markExecuting_of_none (ctx : ExecutionContext) (id : String)
    (h : ctx id = none) :
    markExecuting ctx id = updateMap ctx id ⟨none, none, some true⟩ := by
  unfold markExecuting
  simp [h]

/-- C5: for every View or Method step whose declared chainID differs from the
chain identifier reported by the chain client, the executor action throws
before any contract call is attempted (the outcome does not depend on any
other chain response), the step's own result fields are left unchanged, and
the only context change committed is the earlier in-flight marker. -/
theorem chain_mismatch_aborts :
    (∀ (ctx : ExecutionContext) (bn : String) (o : ViewOracle) (e i : String)
        (de : Option String) (dep : List String) (c ta : String)
        (ma : AbiFunctionFragment) (ps : List Template) (out bno bh : Option String),
      o.actualChainID ≠ c →
        ((completeViewStep ctx ⟨e, i, de, dep, .view c ta ma ps out bno bh⟩ bn o).threw.isSome
            = true ∧
         (completeViewStep ctx ⟨e, i, de, dep, .view c ta ma ps out bno bh⟩ bn o).step =
           ⟨e, i, de, dep, .view c ta ma ps out bno bh⟩ ∧
         ((ctx i).isSome = true →
           (completeViewStep ctx ⟨e, i, de, dep, .view c ta ma ps out bno bh⟩ bn o).ctx = ctx) ∧
         (ctx i = none →
           (completeViewStep ctx ⟨e, i, de, dep, .view c ta ma ps out bno bh⟩ bn o).ctx =
             updateMap ctx i ⟨none, none, some true⟩) ∧
         (∀ o2 : ViewOracle, o2.actualChainID = o.actualChainID →
           completeViewStep ctx ⟨e, i, de, dep, .view c ta ma ps out bno bh⟩ bn o2 =
             completeViewStep ctx ⟨e, i, de, dep, .view c ta ma ps out bno bh⟩ bn o))) ∧
    (∀ (ctx : ExecutionContext) (sender : String) (o : MethodOracle) (e i : String)
        (de : Option String) (dep : List String) (c ta : String)
        (ma : AbiFunctionFragment) (ps : List Template) (v th : Option String)
        (su : Option Bool) (out : Option String),
      o.actualChainID ≠ c →
        ((completeMethodStep ctx ⟨e, i, de, dep, .method c ta ma ps v th su out⟩ sender
            o).threw.isSome = true ∧
         (completeMethodStep ctx ⟨e, i, de, dep, .method c ta ma ps v th su out⟩ sender
            o).step = ⟨e, i, de, dep, .method c ta ma ps v th su out⟩ ∧
         ((ctx i).isSome = true →
           (completeMethodStep ctx ⟨e, i, de, dep, .method c ta ma ps v th su out⟩ sender
             o).ctx = ctx) ∧
         (ctx i = none →
           (completeMethodStep ctx ⟨e, i, de, dep, .method c ta ma ps v th su out⟩ sender
             o).ctx = updateMap ctx i ⟨none, none, some true⟩) ∧
         (∀ o2 : MethodOracle, o2.actualChainID = o.actualChainID →
           completeMethodStep ctx ⟨e, i, de, dep, .method c ta ma ps v th su out⟩ sender o2 =
             completeMethodStep ctx ⟨e, i, de, dep, .method c ta ma ps v th su out⟩
               sender o))) := by
  constructor
  · intro ctx bn o e i de dep c ta ma ps out bno bh hne
    rw [completeViewStep_mismatch ctx bn o e i de dep c ta ma ps out bno bh hne]
    refine ⟨rfl, rfl, ?_, ?_, ?_⟩
    · intro hsome
      exact markExecuting_of_isSome ctx i hsome
    · intro hnone
      exact markExecuting_of_none ctx i hnone
    · intro o2 ho2
      rw [completeViewStep_mismatch ctx bn o2 e i de dep c ta ma ps out bno bh
        (by rw [ho2]; exact hne), ho2]
  · intro ctx sender o e i de dep c ta ma ps v th su out hne
    rw [completeMethodStep_mismatch ctx sender o e i de dep c ta ma ps v th su out hne]
    refine ⟨rfl, rfl, ?_, ?_, ?_⟩
    · intro hsome
      exact markExecuting_of_isSome ctx i hsome
    · intro hnone
      exact markExecuting_of_none ctx i hnone
    · intro o2 ho2
      rw [completeMethodStep_mismatch ctx sender o2 e i de dep c ta ma ps v th su out
        (by rw [ho2]; exact hne), ho2]

theorem chain_mismatch_aborts_witness :
    (("2" : String) ≠ "1") ∧
    ((completeViewStep emptyCtx viewDemoStep "5" ⟨"2", none, "r"⟩).threw.isSome = true ∧
      (completeViewStep emptyCtx viewDemoStep "5" ⟨"2", none, "r"⟩).step = viewDemoStep ∧
      (emptyCtx "v1" = none →
        (completeViewStep emptyCtx viewDemoStep "5" ⟨"2", none, "r"⟩).ctx =
          updateMap emptyCtx "v1" ⟨none, none, some true⟩)) :=
  ⟨by decide,
    ⟨(chain_mismatch_aborts.1 emptyCtx "5" ⟨"2", none, "r"⟩ "x" "v1" none [] "1" "0xto"
        "decimals" [] none none none (by decide)).1,
     (chain_mismatch_aborts.1 emptyCtx "5" ⟨"2", none, "r"⟩ "x" "v1" none [] "1" "0xto"
        "decimals" [] none none none (by decide)).2.1,
     (chain_mismatch_aborts.1 emptyCtx "5" ⟨"2", none, "r"⟩ "x" "v1" none [] "1" "0xto"
        "decimals" [] none none none (by decide)).2.2.2.1⟩⟩

/-- C6 fails on the code: after a successful completeRawStep the terminal
context entry is success/executing only - it omits the value field - while
generateExecutionContext derives value = txHash from the very step the
completer just mutated, so the step and the context disagree about the
completed step's outcome.  completeMethodStep likewise records success true
in the context while never setting the step's own success field, from which
generateExecutionContext derives success false. -/
theorem raw_terminal_entry_disagrees :
    rawDemoResult.threw = none ∧
    isStepComplete rawDemoResult.step = true ∧
    rawDemoResult.ctx "r1" = some ⟨some true, none, some false⟩ ∧
    generateExecutionContext rawDemoChecklist "r1" =
      some ⟨some true, some "0xabc", some false⟩ ∧
    rawDemoResult.ctx "r1" ≠ generateExecutionContext rawDemoChecklist "r1" ∧
    methodDemoResult.threw = none ∧
    isStepComplete methodDemoResult.step = true ∧
    methodDemoResult.ctx "m1" = some ⟨some true, none, some false⟩ ∧
    generateExecutionContext methodDemoChecklist "m1" =
      some ⟨some false, none, some false⟩ ∧
    methodDemoResult.ctx "m1" ≠ generateExecutionContext methodDemoChecklist "m1" := by
  refine ⟨by decide, by decide, by decide, by decide, by decide, by decide, by decide,
    by decide, by decide, by decide⟩

/-- C9 fails on the code: a parameter template whose placeholder references a
stepID absent from the execution context renders as the empty string and the
executor completes without throwing - no TemplateResolutionError exists in the
implementation, because Handlebars.compile is invoked without strict mode. -/
theorem placeholder_no_failure_counterexample :
    emptyCtx "prior" = none ∧
    lookupPath (markExecuting emptyCtx "m1") ["prior", "value"] = none ∧
    renderTemplate (markExecuting emptyCtx "m1")
      [TmplPart.placeholder ["prior", "value"]] = "" ∧
    methodDemoResult.threw = none ∧
    isStepComplete methodDemoResult.step = true := by
  refine ⟨by decide, by decide, by decide, by decide, by decide⟩

/-- C9 amended: executing a View or Method step whose parameter template
references a stepID or field absent from the execution context does not fail;
the placeholder silently interpolates to the empty string (the non-strict
Handlebars default) and the action completes without throwing whenever the
chain identifiers match. -/
theorem unresolvable_placeholder_renders_empty :
    (∀ (ctx : ExecutionContext) (path : List String), lookupPath ctx path = none →
      renderPart ctx (.placeholder path) = "") ∧
    (∀ (ctx : ExecutionContext) (sender : String) (orc : MethodOracle) (e i : String)
        (de : Option String) (dep : List String) (c ta : String)
        (ma : AbiFunctionFragment) (ps : List Template) (v th : Option String)
        (su : Option Bool) (out : Option String), orc.actualChainID = c →
      (completeMethodStep ctx ⟨e, i, de, dep, .method c ta ma ps v th su out⟩ sender
        orc).threw = none) ∧
    (∀ (ctx : ExecutionContext) (bn : String) (orc : ViewOracle) (e i : String)
        (de : Option String) (dep : List String) (c ta : String)
        (ma : AbiFunctionFragment) (ps : List Template) (out bno bh : Option String),
        orc.actualChainID = c →
      (completeViewStep ctx ⟨e, i, de, dep, .view c ta ma ps out bno bh⟩ bn orc).threw
        = none) := by
  refine ⟨?_, ?_, ?_⟩
  · intro ctx path h
    show (lookupPath ctx path).getD "" = ""
    rw [h]
    rfl
  · intro ctx sender orc e i de dep c ta ma ps v th su out heq
    simp only [completeMethodStep]
    rw [if_neg (fun hne => hne heq)]
  · intro ctx bn orc e i de dep c ta ma ps out bno bh heq
    simp only [completeViewStep]
    rw [if_neg (fun hne => hne heq)]

theorem unresolvable_placeholder_renders_empty_witness :
    lookupPath emptyCtx ["prior", "value"] = none ∧
    renderPart emptyCtx (.placeholder ["prior", "value"]) = "" ∧
    (completeMethodStep emptyCtx methodDemoStep "0xsender" ⟨"1", some "0xhash", none⟩).threw
      = none :=
  ⟨by decide,
   unresolvable_placeholder_renders_empty.1 emptyCtx ["prior", "value"] (by decide),
   unresolvable_placeholder_renders_empty.2.1 emptyCtx "0xsender" ⟨"1", some "0xhash", none⟩
     "x" "m1" none [] "1" "0xto" "transfer" [[TmplPart.placeholder ["prior", "value"]]]
     none none none none rfl⟩
